import Mathlib

/-!
Verification of the Obsidian personal-website data-export scripts.

The JavaScript sources are shallowly embedded: JavaScript values become the
inductive type `JValue`, objects become ordered association lists (JavaScript
objects preserve key insertion order), and each function of the repository is
translated into a Lean function of the same name.  Host capabilities (the
file system, `JSON.parse`, `Date`, the locale-aware string comparison) are
modelled as explicit parameters or as documented total approximations.
Numbers are modelled as exact decimals `m / 10 ^ e` (an `Int` mantissa and a
`Nat` scale); IEEE rounding, `NaN` and the infinities are outside the model
and are noted at the definitions whose host counterparts could produce them.
-/

/-- Model of a JavaScript/JSON value.  `undefined` is kept distinct from
`null` because the source distinguishes them (`!== undefined` tests,
rest-spread behaviour).  `num m e` denotes the exact decimal `m / 10 ^ e`. -/
inductive JValue where
  | undefined
  | null
  | bool (b : Bool)
  | num (m : Int) (e : Nat)
  | str (s : String)
  | arr (elems : List JValue)
  | obj (fields : List (String × JValue))
deriving Repr

mutual

/-- Structural equality test for `JValue` (used to derive decidable equality). -/
def beqJV : JValue → JValue → Bool
  | .undefined, .undefined => true
  | .null, .null => true
  | .bool a, .bool b => a == b
  | .num m1 e1, .num m2 e2 => m1 == m2 && e1 == e2
  | .str a, .str b => a == b
  | .arr a, .arr b => beqJVList a b
  | .obj a, .obj b => beqJVFields a b
  | _, _ => false

/-- Structural equality test for lists of `JValue`. -/
def beqJVList : List JValue → List JValue → Bool
  | [], [] => true
  | a :: as, b :: bs => beqJV a b && beqJVList as bs
  | _, _ => false

/-- Structural equality test for association lists of `JValue`. -/
def beqJVFields : List (String × JValue) → List (String × JValue) → Bool
  | [], [] => true
  | (k1, v1) :: as, (k2, v2) :: bs => k1 == k2 && beqJV v1 v2 && beqJVFields as bs
  | _, _ => false

end

mutual

theorem beqJV_eq : ∀ a b, beqJV a b = true ↔ a = b
  | .undefined, b => by cases b <;> simp [beqJV]
  | .null, b => by cases b <;> simp [beqJV]
  | .bool x, b => by cases b <;> simp [beqJV]
  | .num m e, b => by cases b <;> simp [beqJV]
  | .str s, b => by cases b <;> simp [beqJV]
  | .arr xs, b => by
      cases b <;> simp [beqJV]
      exact beqJVList_eq xs _

  | .obj fs, b => by
      cases b <;> simp [beqJV]
      exact beqJVFields_eq fs _

theorem beqJVList_eq : ∀ a b, beqJVList a b = true ↔ a = b
  | [], b => by cases b <;> simp [beqJVList]
  | x :: xs, b => by
      cases b with
      | nil => simp [beqJVList]
      | cons y ys =>
        simp [beqJVList, Bool.and_eq_true]
        rw [beqJV_eq, beqJVList_eq]

theorem beqJVFields_eq : ∀ a b, beqJVFields a b = true ↔ a = b
  | [], b => by cases b <;> simp [beqJVFields]
  | (k, v) :: xs, b => by
      cases b with
      | nil => simp [beqJVFields]
      | cons y ys =>
        cases y with
        | mk k2 v2 =>
          simp [beqJVFields, Bool.and_eq_true]
          rw [beqJV_eq, beqJVFields_eq]

end

instance : DecidableEq JValue := fun a b => decidable_of_iff (beqJV a b = true) (beqJV_eq a b)

/-- Truthiness of a JavaScript value: `undefined`, `null`, `false`, `0` and
the empty string are falsy; every array and object is truthy.  (`NaN`, the
remaining falsy host value, has no counterpart in the model.) -/
def jsFalsy : JValue → Bool
  | .undefined => true
  | .null => true
  | .bool b => !b
  | .num m _ => m == 0
  | .str s => s == ""
  | .arr _ => false
  | .obj _ => false

/-- Decimal rendering of the number model, matching the host's rendering of
integral values (`String(5) = "5"`); a positive scale is rendered with a
decimal point and is exact for the values produced by the embedded parsers. -/
def jnumToString (m : Int) (e : Nat) : String :=
  if e = 0 then toString m
  else
    let a := m.natAbs
    let p := 10 ^ e
    let fpStr := toString (a % p)
    (if m < 0 then "-" else "") ++ toString (a / p) ++ "." ++
      String.mk (List.replicate (e - fpStr.length) '0') ++ fpStr

mutual

/-- String conversion of a JavaScript value (the `String(v)` /
template-literal semantics): arrays join their elements with commas, objects
render as the fixed object tag. -/
def jsToString : JValue → String
  | .undefined => "undefined"
  | .null => "null"
  | .bool b => cond b "true" "false"
  | .num m e => jnumToString m e
  | .str s => s
  | .arr xs => String.intercalate "," (jsToStringArr xs)
  | .obj _ => "[object Object]"

/-- Element-wise string conversion used by `Array.prototype.join`: `null` and
`undefined` elements render as the empty string. -/
def jsToStringArr : List JValue → List String
  | [] => []
  | .null :: vs => "" :: jsToStringArr vs
  | .undefined :: vs => "" :: jsToStringArr vs
  | v :: vs => jsToString v :: jsToStringArr vs

end

/-- A string is a canonical array index when it is the decimal rendering of a
natural number, that is, a digit run without leading zeros (JavaScript
exposes array elements under such keys only). -/
def canonIndex (k : String) : Option Nat :=
  match k.data with
  | [] => none
  | c :: rest =>
    if (c :: rest).all Char.isDigit ∧ (c = '0' → rest = []) then
      some ((c :: rest).foldl (fun n ch => 10 * n + (ch.toNat - 48)) 0)
    else none

/-- Property access `v[k]` on a JavaScript value: object key lookup,
array/string indexing and `length`, and `undefined` everywhere else. -/
def getProp (v : JValue) (k : String) : JValue :=
  match v with
  | .obj fs =>
      match fs.find? (fun p => p.1 == k) with
      | some p => p.2
      | none => .undefined
  | .arr xs =>
      if k = "length" then .num (xs.length : Int) 0
      else
        match canonIndex k with
        | some i => (xs.get? i).getD .undefined
        | none => .undefined
  | .str s =>
      if k = "length" then .num (s.length : Int) 0
      else
        match canonIndex k with
        | some i =>
            match s.data.get? i with
            | some c => .str (String.mk [c])
            | none => .undefined
        | none => .undefined
  | _ => .undefined

/-- Key lookup in an object's field list, `none` when the key is absent. -/
def lookupOpt (fs : List (String × JValue)) (k : String) : Option JValue :=
  (fs.find? (fun p => p.1 == k)).map (fun p => p.2)

/-- Property assignment `obj[k] = v` on an object's field list: an existing
key keeps its position and is overwritten, a new key is appended at the end
(JavaScript insertion-order semantics). -/
def setProp : List (String × JValue) → String → JValue → List (String × JValue)
  | [], k, v => [(k, v)]
  | p :: ps, k, v => if p.1 = k then (k, v) :: ps else p :: setProp ps k v

/-- Rest-spread `const \x7b a, b, ...rest \x7d = v` with the excluded keys
removed: an object yields its remaining fields in order, an array or string
yields its index-keyed own enumerable properties, a primitive yields nothing.
(Rest-destructuring `null`/`undefined` throws; callers model the throw.) -/
def restSpread (v : JValue) (excluded : List String) : List (String × JValue) :=
  match v with
  | .obj fs => fs.filter (fun p => !(excluded.contains p.1))
  | .arr xs =>
      (xs.enum.map (fun p => (toString p.1, p.2))).filter
        (fun p => !(excluded.contains p.1))
  | .str s =>
      ((s.data.enum.map (fun p => (toString p.1, JValue.str (String.mk [p.2]))))).filter
        (fun p => !(excluded.contains p.1))
  | _ => []

/-- Fuel-driven scanner implementing the global regex replacement
`value.replace(/\[\[([^\]]+)\]\]/g, "$1")` from `cleanWikilinks` in
`src/lib/utils.mjs`.  At a position starting with two opening brackets the
greedy class `[^\]]+` takes the longest run of non-`]` characters; the match
succeeds exactly when that run is non-empty and is followed by two closing
brackets, in which case the captured run is emitted and scanning resumes
after the match; otherwise scanning advances one character, as the host
regex engine does.  The fuel is an upper bound on the number of scanning
steps; `replaceWikilinks` supplies enough of it. -/
def scanWL : Nat → List Char → List Char
  | 0, _ => []
  | _ + 1, [] => []
  | fuel + 1, c :: cs =>
    if c = '[' ∧ cs.head? = some '[' then
      let inner := cs.tail.takeWhile (fun x => x ≠ ']')
      let after := cs.tail.drop inner.length
      if inner ≠ [] ∧ after.take 2 = [']', ']'] then
        inner ++ scanWL fuel (after.drop 2)
      else '[' :: scanWL fuel cs
    else c :: scanWL fuel cs

/-- Replacement of every wikilink token `[[X]]` in a string by its inner
text `X`, the string branch of `cleanWikilinks` (src/lib/utils.mjs). -/
def replaceWikilinks (s : String) : String :=
  String.mk (scanWL (s.data.length + 1) s.data)

mutual

/-- Translation of `cleanWikilinks` (src/lib/utils.mjs): `null` and
`undefined` pass through, arrays are cleaned element-wise, strings have
their wikilink brackets removed, every other value is returned unchanged. -/
def cleanWikilinks : JValue → JValue
  | .null => .null
  | .undefined => .undefined
  | .arr xs => .arr (cleanWikilinksList xs)
  | .str s => .str (replaceWikilinks s)
  | v => v

/-- Element-wise cleaning used by the array branch of `cleanWikilinks`. -/
def cleanWikilinksList : List JValue → List JValue
  | [] => []
  | v :: vs => cleanWikilinks v :: cleanWikilinksList vs

end

/-- Translation of `getLastUpdated` (src/lib/utils.mjs).  The file system
and `JSON.parse` are modelled by `store`: `store filename = none` means the
output file is missing or fails to parse (the catch branch), `some existing`
means it parsed to `existing`.  The host's `JSON.stringify` comparison of
the two stripped documents is modelled as structural equality of the
stripped field lists, which coincides with it on parsed JSON data.
Rest-destructuring `null` or `undefined` throws inside the try block, which
the catch also turns into the fresh timestamp `now` (the model of
`new Date().toISOString()`). -/
def getLastUpdated (store : String → Option JValue) (now : String)
    (filename : String) (newData : JValue) : JValue :=
  match store filename with
  | none => .str now
  | some existing =>
    if existing = .null ∨ existing = .undefined ∨ newData = .null ∨ newData = .undefined then
      .str now
    else
      let existingData := restSpread existing ["lastUpdated", "count"]
      let newDataOnly := restSpread newData ["lastUpdated", "count"]
      if existingData = newDataOnly then getProp existing "lastUpdated"
      else .str now

/-- Substring containment, the semantics of `String.prototype.includes`. -/
def jsIncludes (s sub : String) : Bool :=
  decide (List.IsInfix sub.data s.data)

/-- Model of `v.includes(kategorie)` applied to a cleaned value inside
`hasKategorie`: strings test substring containment, arrays test strict
element equality (`Array.prototype.includes`), and every other value has no
`includes` method, so the call throws (`none`). -/
def includesTerm (v : JValue) (term : String) : Option Bool :=
  match v with
  | .str s => some (jsIncludes s term)
  | .arr xs => some (xs.contains (.str term))
  | _ => none

/-- Short-circuiting `values.some((v) => cleanWikilinks(v).includes(term))`
from `hasKategorie`; `none` models a thrown `TypeError` on an element whose
cleaned value has no `includes` method. -/
def someIncludes : List JValue → String → Option Bool
  | [], _ => some false
  | v :: vs, term =>
    match includesTerm (cleanWikilinks v) term with
    | none => none
    | some true => some true
    | some false => someIncludes vs term

/-- Translation of `hasKategorie` (src/lib/utils.mjs): a falsy `Kategorie`
attribute yields `false`; otherwise the value is coerced to an array when
scalar and tested element-wise for substring containment of the search term
after wikilink cleaning.  `none` models a thrown `TypeError`. -/
def hasKategorie (data : JValue) (kategorie : String) : Option Bool :=
  let kat := getProp data "Kategorie"
  if jsFalsy kat then some false
  else
    let values := match kat with
      | .arr xs => xs
      | v => [v]
    someIncludes values kategorie

/-- Translation of `normalizeStatus` (src/lib/utils.mjs): a falsy status
yields the empty sequence, an array is cleaned element-wise, a scalar
becomes a cleaned singleton. -/
def normalizeStatus (status : JValue) : List JValue :=
  if jsFalsy status then []
  else
    match status with
    | .arr xs => cleanWikilinksList xs
    | v => [cleanWikilinks v]

/-- Translation of `translateKeys` (src/lib/utils.mjs): iterate the key map
in order and, for every `(germanKey, englishKey)` entry whose source value
is defined, assign the cleaned source value to the English key. -/
def translateKeys (data : JValue) (keyMap : List (String × String)) :
    List (String × JValue) :=
  keyMap.foldl
    (fun result p =>
      if getProp data p.1 = .undefined then result
      else setProp result p.2 (cleanWikilinks (getProp data p.1)))
    []

/-- Characters treated as whitespace by the host's numeric parsers (the
ASCII members of the ECMAScript WhiteSpace and LineTerminator sets; the
exotic Unicode space code points are outside the model). -/
def jsWhitespace (c : Char) : Bool :=
  c = ' ' ∨ c = '\t' ∨ c = '\n' ∨ c = '\r' ∨ c = '\x0b' ∨ c = '\x0c'

/-- Value of a non-empty digit run read in base ten. -/
def digitsToNat (l : List Char) : Nat :=
  l.foldl (fun n c => 10 * n + (c.toNat - 48)) 0

/-- Model of `parseInt(s, 10)`: skip leading whitespace, read an optional
sign, then the longest prefix of decimal digits; an empty digit run is the
`NaN` result (`none`), trailing garbage is ignored. -/
def jsParseInt (s : String) : Option Int :=
  match s.data.dropWhile jsWhitespace with
  | [] => none
  | c :: r =>
    if c = '-' then
      let ds := r.takeWhile Char.isDigit
      if ds = [] then none else some (-(digitsToNat ds : Int))
    else if c = '+' then
      let ds := r.takeWhile Char.isDigit
      if ds = [] then none else some (digitsToNat ds : Int)
    else
      let ds := (c :: r).takeWhile Char.isDigit
      if ds = [] then none else some (digitsToNat ds : Int)

/-- Unsigned part of `parseFloat`: the longest prefix of the form
`digits [. digits] [exponent]` with at least one digit before or after the
point, valued as an exact decimal `(m, e)` with `m / 10 ^ e` the parsed
number.  (`Infinity`, accepted by the host, has no model value and yields
`none`; IEEE rounding of the exact decimal is not modelled.) -/
def parseFloatMag (l : List Char) : Option (Int × Nat) :=
  let ip := l.takeWhile Char.isDigit
  let l1 := l.drop ip.length
  let fp := match l1 with
    | '.' :: r => r.takeWhile Char.isDigit
    | _ => []
  let l2 := match l1 with
    | '.' :: r => r.drop fp.length
    | _ => l1
  if ip = [] ∧ fp = [] then none
  else
    let mant : Int := (digitsToNat ip * 10 ^ fp.length + digitsToNat fp : Nat)
    let expo : Option (Bool × Nat) := match l2 with
      | 'e' :: '-' :: r2 =>
          let ds := r2.takeWhile Char.isDigit
          if ds = [] then none else some (true, digitsToNat ds)
      | 'E' :: '-' :: r2 =>
          let ds := r2.takeWhile Char.isDigit
          if ds = [] then none else some (true, digitsToNat ds)
      | 'e' :: '+' :: r2 =>
          let ds := r2.takeWhile Char.isDigit
          if ds = [] then none else some (false, digitsToNat ds)
      | 'E' :: '+' :: r2 =>
          let ds := r2.takeWhile Char.isDigit
          if ds = [] then none else some (false, digitsToNat ds)
      | 'e' :: r2 =>
          let ds := r2.takeWhile Char.isDigit
          if ds = [] then none else some (false, digitsToNat ds)
      | 'E' :: r2 =>
          let ds := r2.takeWhile Char.isDigit
          if ds = [] then none else some (false, digitsToNat ds)
      | _ => none
    match expo with
    | none => some (mant, fp.length)
    | some (true, k) => some (mant, fp.length + k)
    | some (false, k) => some (mant * 10 ^ k, fp.length)

/-- Model of `parseFloat(s)`: leading whitespace, an optional sign, then the
longest valid decimal literal; no digits at all is the `NaN` result. -/
def jsParseFloat (s : String) : Option (Int × Nat) :=
  match s.data.dropWhile jsWhitespace with
  | [] => none
  | c :: r =>
    if c = '-' then (parseFloatMag r).map (fun p => (-p.1, p.2))
    else if c = '+' then parseFloatMag r
    else parseFloatMag (c :: r)

/-- Numeric coercion of the `pages` field in `exportBooks`
(src/export-books.mjs): a truthy value is passed to `parseInt` and replaced
by the parsed integer unless the parse is `NaN`, in which case the original
value is kept.  The field is never removed and no error can be raised. -/
def coercePages (book : List (String × JValue)) : List (String × JValue) :=
  let v := getProp (.obj book) "pages"
  if jsFalsy v then book
  else
    match jsParseInt (jsToString v) with
    | some n => setProp book "pages" (.num n 0)
    | none => book

/-- Numeric coercion of the `rating` field in `exportBooks`
(src/export-books.mjs): a truthy value is passed to `parseFloat` and
replaced by the parsed number unless the parse is `NaN`, in which case the
original value is kept. -/
def coerceRating (book : List (String × JValue)) : List (String × JValue) :=
  let v := getProp (.obj book) "rating"
  if jsFalsy v then book
  else
    match jsParseFloat (jsToString v) with
    | some p => setProp book "rating" (.num p.1 p.2)
    | none => book

/-- Ten-character core of the fixed-width date pattern of `normalizeDate`
(src/export-timeline.mjs): four digits, a hyphen, two digits, a hyphen, two
digits. -/
def dateCore : List Char → Bool
  | [a, b, c, d, e, f, g, h, i, j] =>
      a.isDigit && b.isDigit && c.isDigit && d.isDigit && e = '-' &&
      f.isDigit && g.isDigit && h = '-' && i.isDigit && j.isDigit
  | _ => false

/-- Decision of the fixed-width date regex of `normalizeDate`: an optional
leading minus sign followed by the ten-character digit/hyphen core. -/
def matchesDatePattern (s : String) : Bool :=
  match s.data with
  | [] => false
  | c :: rest => if c = '-' then dateCore rest else dateCore (c :: rest)

/-- Translation of `normalizeDate` (src/export-timeline.mjs) on the string
and pass-through branches: a string matching the fixed-width date pattern
gains the midnight-UTC time suffix, anything else is returned unchanged.
(The `Date`-instance branch delegates to the host's `toISOString` and is
outside the model: metadata date objects are not represented in `JValue`.) -/
def normalizeDate (v : JValue) : JValue :=
  match v with
  | .str s => if matchesDatePattern s then .str (s ++ "T00:00:00.000Z") else .str s
  | x => x

/-- Model of `a.localeCompare(b)` as code-point lexicographic comparison,
which coincides with the host's locale collation on the ASCII digit/hyphen
date strings the exporters compare. -/
def localeCompare (a b : String) : Int :=
  match compare a b with
  | .lt => -1
  | .eq => 0
  | .gt => 1

/-- Date string a bucket comparator extracts from an item:
`item[field] ? String(item[field]) : ""`. -/
def dateKey (item : JValue) (field : String) : String :=
  let v := getProp item field
  if jsFalsy v then "" else jsToString v

/-- Translation of the `sortByFinished` comparator (src/export-books.mjs and
the series exporter): items without a date string compare equal to each
other and after any dated item; two dated items compare by descending
string comparison of their `finished` representations. -/
def sortByFinished (a b : JValue) : Int :=
  let aDate := dateKey a "finished"
  let bDate := dateKey b "finished"
  if aDate = "" ∧ bDate = "" then 0
  else if aDate = "" then 1
  else if bDate = "" then -1
  else localeCompare bDate aDate

/-- Translation of the timeline entry comparator (src/export-timeline.mjs):
like `sortByFinished` but on the `start` field and ascending. -/
def sortByStart (a b : JValue) : Int :=
  let aDate := dateKey a "start"
  let bDate := dateKey b "start"
  if aDate = "" ∧ bDate = "" then 0
  else if aDate = "" then 1
  else if bDate = "" then -1
  else localeCompare aDate bDate

/-- Status buckets built by `exportBooks` (src/export-books.mjs) and by the
identically written grouping stage of the series exporter: three flat lists
and the completed bucket keyed by year of completion. -/
structure StatusGroups where
  aktiv : List JValue
  merkliste : List JValue
  pausiert : List JValue
  abgeschlossen : List (String × List JValue)
deriving Repr, DecidableEq

/-- First status element with falsy fallback:
`const status = book.status?.[0] || ""`. -/
def statusTag (book : JValue) : JValue :=
  let s := getProp (getProp book "status") "0"
  if jsFalsy s then .str "" else s

/-- Append a completed item to its year's list, creating the year key at the
end of the map when it is new (`abgeschlossen[year].push(book)`). -/
def pushYear : List (String × List JValue) → String → JValue →
    List (String × List JValue)
  | [], y, b => [(y, [b])]
  | p :: ps, y, b =>
    if p.1 = y then (p.1, p.2 ++ [b]) :: ps else p :: pushYear ps y b

/-- One iteration of the status-grouping loop of `exportBooks` and the
series exporter: the first normalized status selects one of the three flat
buckets or, for `Abgeschlossen`, the year bucket derived from the `finished`
field; any other value leaves every bucket untouched.  `yearOf` models the
host computation `String(new Date(finished).getFullYear())` applied to a
truthy `finished` value. -/
def statusStep (yearOf : JValue → String) (g : StatusGroups) (book : JValue) :
    StatusGroups :=
  let status := statusTag book
  if status = .str "Aktiv" then
    StatusGroups.mk (g.aktiv ++ [book]) g.merkliste g.pausiert g.abgeschlossen
  else if status = .str "Merkliste" then
    StatusGroups.mk g.aktiv (g.merkliste ++ [book]) g.pausiert g.abgeschlossen
  else if status = .str "Pausiert" then
    StatusGroups.mk g.aktiv g.merkliste (g.pausiert ++ [book]) g.abgeschlossen
  else if status = .str "Abgeschlossen" then
    let finished := getProp book "finished"
    let year := if jsFalsy finished then "unknown" else yearOf finished
    StatusGroups.mk g.aktiv g.merkliste g.pausiert (pushYear g.abgeschlossen year book)
  else g

/-- Grouping stage of `exportBooks` and the series exporter over the full
item list. -/
def groupByStatus (yearOf : JValue → String) (items : List JValue) : StatusGroups :=
  items.foldl (statusStep yearOf) (StatusGroups.mk [] [] [] [])

/-- Total number of items across all four bucket structures. -/
def bucketsTotal (g : StatusGroups) : Nat :=
  g.aktiv.length + g.merkliste.length + g.pausiert.length +
    (g.abgeschlossen.map (fun p => p.2.length)).sum

/-- Test that an item's first status element is one of the four labels the
grouping loop recognizes. -/
def isBucketed (book : JValue) : Bool :=
  let s := statusTag book
  s == .str "Aktiv" || s == .str "Merkliste" || s == .str "Pausiert" ||
    s == .str "Abgeschlossen"

/-- Item count the books/series exporters publish in the output document
(`count: books.length`, `count: series.length`). -/
def outputCount (items : List JValue) : Nat := items.length

/-- Lowercasing of a character as performed by `toLowerCase` on the ASCII
range; exotic code points whose host lowercasing maps into ASCII (such as
the Kelvin sign) are outside the model. -/
def toLowerAscii (c : Char) : Char :=
  if 'A' ≤ c ∧ c ≤ 'Z' then Char.ofNat (c.toNat + 32) else c

/-- Membership in the character class `[a-z0-9-]` kept by the sanitizer. -/
def isSafeChar (c : Char) : Bool :=
  ('a' ≤ c && c ≤ 'z') || ('0' ≤ c && c ≤ '9') || c = '-'

/-- Collapse of every maximal hyphen run to a single hyphen, the replacement
of repeated hyphens by one (the global `-+` replacement); the flag records whether the previous kept character
was a hyphen. -/
def collapseHyphens : Bool → List Char → List Char
  | _, [] => []
  | prevDash, c :: cs =>
    if c = '-' then
      if prevDash then collapseHyphens true cs
      else '-' :: collapseHyphens true cs
    else c :: collapseHyphens false cs

/-- Removal of one leading and one trailing hyphen, the replacement
performed by the global boundary-hyphen replacement of the source. -/
def trimHyphens (l : List Char) : List Char :=
  let l1 := match l with
    | '-' :: rest => rest
    | x => x
  match l1.getLast? with
  | some '-' => l1.dropLast
  | _ => l1

/-- Author selection of `sanitizeFilename`:
`Array.isArray(author) ? author[0] : author || "Unknown"`. -/
def firstAuthorVal (author : JValue) : JValue :=
  match author with
  | .arr xs => xs.headD .undefined
  | v => if jsFalsy v then .str "Unknown" else v

/-- Translation of `sanitizeFilename` (src/scripts/books/download-book-covers.mjs
and the identical copy in rename-book-covers.mjs): join title and first
author with a hyphen, lowercase, replace every character outside `[a-z0-9-]`
by a hyphen, collapse hyphen runs, trim boundary hyphens, truncate to 100
characters and append the image extension. -/
def sanitizeFilename (title author : JValue) : String :=
  let raw := (jsToString title ++ "-" ++ jsToString (firstAuthorVal author)).data
  let lowered := raw.map toLowerAscii
  let replaced := lowered.map (fun c => if isSafeChar c then c else '-')
  String.mk ((trimHyphens (collapseHyphens false replaced)).take 100) ++ ".jpg"

/-- Replacement of every maximal run of characters outside `[a-z0-9-]` by a
single hyphen; the flag records being inside such a run.  This is the
sanitization step as the specification words it (run replacement instead of
the source's per-character replacement). -/
def runReplace : Bool → List Char → List Char
  | _, [] => []
  | inRun, c :: cs =>
    if isSafeChar c then c :: runReplace false cs
    else if inRun then runReplace true cs
    else '-' :: runReplace true cs

/-- Sanitization pipeline as described by the specification, used for the
refinement comparison against `sanitizeFilename`: identical except that the
replacement step maps each maximal run of disallowed characters to one hyphen
before the hyphen-collapse step. -/
def sanitizeFilenameSpec (title author : JValue) : String :=
  let raw := (jsToString title ++ "-" ++ jsToString (firstAuthorVal author)).data
  let lowered := raw.map toLowerAscii
  let replaced := runReplace false lowered
  String.mk ((trimHyphens (collapseHyphens false replaced)).take 100) ++ ".jpg"

/-- Corpus root hard-coded in src/lib/utils.mjs. -/
def VAULT_PATH : String := "/Users/robin/Documents/Obsidian/Notes"

/-- Path concatenation as performed by `join(VAULT_PATH, p)` for a relative
`p` (path normalization beyond separator insertion is irrelevant to the
claims, which quantify over the existence predicate). -/
def joinPath (a b : String) : String := a ++ "/" ++ b

/-- Translation of `cleanupBookFrontmatter` (the cleanup script of the book
cover tooling).  The file system is the predicate `fsExists`.  The result is
the updated metadata together with the `changed` flag; the script writes the
note back exactly when `changed` is true.  `none` models the `TypeError`
thrown by `join` when the local-cover field holds a truthy non-string. -/
def cleanupBookFrontmatter (fsExists : String → Bool)
    (data : List (String × JValue)) : Option (List (String × JValue) × Bool) :=
  let currentCoverLocal := getProp (.obj data) "Cover (lokal)"
  let currentCover := getProp (.obj data) "Cover"
  let localCoverPathOpt : Option (Option String) :=
    if jsFalsy currentCoverLocal then some none
    else
      match currentCoverLocal with
      | .str p => some (if fsExists (joinPath VAULT_PATH p) then some p else none)
      | _ => none
  match localCoverPathOpt with
  | none => none
  | some localCoverPath =>
    let expected : String := match localCoverPath with
      | some p => if p = "" then "" else p
      | none => ""
    let data1 := setProp data "Cover (lokal)" (.str expected)
    let data2 := setProp data1 "Cover" (.str "")
    let hadCorrectLocal : Bool := currentCoverLocal == .str expected
    let needsCoverField : Bool := !(currentCover == .str "")
    some (data2, needsCoverField || !hadCorrectLocal)

theorem lookupOpt_cons (p : String × JValue) (ps : List (String × JValue)) (k : String) :
    lookupOpt (p :: ps) k = if p.1 = k then some p.2 else lookupOpt ps k := by
  by_cases h : p.1 = k <;> simp [lookupOpt, List.find?_cons, h]

theorem lookupOpt_setProp (fs : List (String × JValue)) (k : String) (v : JValue)
    (k2 : String) :
    lookupOpt (setProp fs k v) k2 = if k2 = k then some v else lookupOpt fs k2 := by
  induction fs with
  | nil =>
    show lookupOpt [(k, v)] k2 = _
    rw [lookupOpt_cons]
    by_cases h : k2 = k
    · rw [if_pos h.symm, if_pos h]
    · rw [if_neg (fun hh => h hh.symm), if_neg h]
  | cons p ps ih =>
    rcases p with ⟨pk, pv⟩
    by_cases hp : pk = k
    · have hs : setProp ((pk, pv) :: ps) k v = (k, v) :: ps := by simp [setProp, hp]
      rw [hs, lookupOpt_cons, lookupOpt_cons]
      by_cases h2 : k2 = k
      · rw [if_pos h2.symm, if_pos h2]
      · rw [if_neg (fun hh => h2 hh.symm), if_neg h2,
          if_neg (fun hh => h2 ((hp ▸ hh : pk = k2).symm ▸ hp.symm).symm)]
  
    · have hs : setProp ((pk, pv) :: ps) k v = (pk, pv) :: setProp ps k v := by
        simp [setProp, hp]
      rw [hs, lookupOpt_cons, lookupOpt_cons]
      by_cases hpk2 : pk = k2
      · have h2 : ¬k2 = k := fun hh => hp (hpk2.trans hh)
        rw [if_pos hpk2, if_neg h2, if_pos hpk2]
      · rw [if_neg hpk2, if_neg hpk2, ih]

theorem setProp_self (fs : List (String × JValue)) (k : String) (v : JValue)
    (h : lookupOpt fs k = some v) : setProp fs k v = fs := by
  induction fs with
  | nil => simp [lookupOpt] at h
  | cons p ps ih =>
    rcases p with ⟨pk, pv⟩
    rw [lookupOpt_cons] at h
    by_cases hp : pk = k
    · rw [if_pos hp] at h
      have hv : pv = v := by injection h
      subst hp; subst hv
      simp [setProp]
    · rw [if_neg hp] at h
      simp [setProp, hp, ih h]

theorem getProp_obj (fs : List (String × JValue)) (k : String) :
    getProp (.obj fs) k = (lookupOpt fs k).getD .undefined := by
  simp only [getProp, lookupOpt]
  rcases h : List.find? (fun p => p.1 == k) fs with _ | p <;> simp [h]

/-- Shape described by the specification's fixed-width date pattern: an
optional leading minus sign, four digits, a hyphen, two digits, a hyphen and
two digits. -/
def IsDateShape (s : String) : Prop :=
  ∃ (opt : Bool) (a b c d f g i j : Char),
    s.data = (cond opt ['-'] []) ++ [a, b, c, d, '-', f, g, '-', i, j] ∧
    a.isDigit ∧ b.isDigit ∧ c.isDigit ∧ d.isDigit ∧ f.isDigit ∧ g.isDigit ∧
    i.isDigit ∧ j.isDigit

theorem dateCore_iff (m : List Char) :
    dateCore m = true ↔
      ∃ a b c d f g i j : Char,
        m = [a, b, c, d, '-', f, g, '-', i, j] ∧
        a.isDigit ∧ b.isDigit ∧ c.isDigit ∧ d.isDigit ∧ f.isDigit ∧ g.isDigit ∧
        i.isDigit ∧ j.isDigit := by
  constructor
  · intro h
    rcases m with _ | ⟨a, m⟩; · simp [dateCore] at h
    rcases m with _ | ⟨b, m⟩; · simp [dateCore] at h
    rcases m with _ | ⟨c, m⟩; · simp [dateCore] at h
    rcases m with _ | ⟨d, m⟩; · simp [dateCore] at h
    rcases m with _ | ⟨e, m⟩; · simp [dateCore] at h
    rcases m with _ | ⟨f, m⟩; · simp [dateCore] at h
    rcases m with _ | ⟨g, m⟩; · simp [dateCore] at h
    rcases m with _ | ⟨h2, m⟩; · simp [dateCore] at h
    rcases m with _ | ⟨i, m⟩; · simp [dateCore] at h
    rcases m with _ | ⟨j, m⟩; · simp [dateCore] at h
    rcases m with _ | ⟨x, m⟩
    · simp only [dateCore, Bool.and_eq_true, decide_eq_true_eq] at h
      have he : e = '-' := by tauto
      have hh2 : h2 = '-' := by tauto
      subst he; subst hh2
      refine ⟨a, b, c, d, f, g, i, j, rfl, ?_, ?_, ?_, ?_, ?_, ?_, ?_, ?_⟩ <;> tauto
    · simp [dateCore] at h
  · rintro ⟨a, b, c, d, f, g, i, j, hm, ha, hb, hc, hd, hf, hg, hi, hj⟩
    subst hm
    simp [dateCore, ha, hb, hc, hd, hf, hg, hi, hj]

theorem isDigit_ne_hyphen {c : Char} (h : c.isDigit = true) : c ≠ '-' := by
  intro he; subst he; exact absurd h (by decide)

theorem matchesDatePattern_nil (s : String) (hm : s.data = []) :
    matchesDatePattern s = false := by
  unfold matchesDatePattern
  rw [hm]

theorem matchesDatePattern_cons (s : String) (c : Char) (rest : List Char)
    (hm : s.data = c :: rest) :
    matchesDatePattern s = if c = '-' then dateCore rest else dateCore (c :: rest) := by
  unfold matchesDatePattern
  rw [hm]

theorem matchesDatePattern_iff (s : String) :
    matchesDatePattern s = true ↔ IsDateShape s := by
  rcases hm : s.data with _ | ⟨c, rest⟩
  · rw [matchesDatePattern_nil s hm]
    simp only [IsDateShape]
    constructor
    · intro h; cases h
    · rintro ⟨opt, a, b, c, d, f, g, i, j, habs, _⟩
      rw [hm] at habs; cases opt <;> simp at habs
  · rw [matchesDatePattern_cons s c rest hm]
    by_cases hc : c = '-'
    · rw [if_pos hc, dateCore_iff]
      subst hc
      constructor
      · rintro ⟨a, b, c, d, f, g, i, j, hrest, hds⟩
        exact ⟨true, a, b, c, d, f, g, i, j, by rw [hm, hrest]; rfl, hds⟩
      · rintro ⟨opt, a, b, c, d, f, g, i, j, heq, hds⟩
        rw [hm] at heq
        cases opt
        · simp at heq
          exact absurd heq.1.symm (isDigit_ne_hyphen hds.1)
        · simp at heq
          exact ⟨a, b, c, d, f, g, i, j, heq, hds⟩
    · rw [if_neg hc, dateCore_iff]
      constructor
      · rintro ⟨a, b, c2, d, f, g, i, j, hrest, hds⟩
        exact ⟨false, a, b, c2, d, f, g, i, j, by rw [hm, hrest]; rfl, hds⟩
      · rintro ⟨opt, a, b, c2, d, f, g, i, j, heq, hds⟩
        rw [hm] at heq
        cases opt
        · simp at heq
          exact ⟨a, b, c2, d, f, g, i, j, by rw [heq.1, heq.2], hds⟩
        · simp at heq
          exact absurd heq.1 hc

/-- C5: for every string value, date normalization appends the midnight-UTC
time component exactly when the string matches the fixed-width pattern of an
optional leading minus sign, four digits, a hyphen, two digits, a hyphen and
two digits, and returns every non-matching string unchanged. -/
theorem normalizeDate_spec (s : String) :
    (IsDateShape s → normalizeDate (.str s) = .str (s ++ "T00:00:00.000Z")) ∧
    (¬ IsDateShape s → normalizeDate (.str s) = .str s) := by
  constructor
  · intro h
    simp [normalizeDate, (matchesDatePattern_iff s).mpr h]
  · intro h
    have hf : matchesDatePattern s = false := by
      rcases hb : matchesDatePattern s
      · rfl
      · exact absurd ((matchesDatePattern_iff s).mp hb) h
    simp [normalizeDate, hf]

/-- Witness for C5: the BCE date of the specification gains the time suffix
and a non-conforming string passes through unchanged. -/
theorem normalizeDate_spec_witness :
    normalizeDate (.str "-0500-01-01") = .str "-0500-01-01T00:00:00.000Z" ∧
    normalizeDate (.str "yesterday") = .str "yesterday" := by
  constructor
  · exact (normalizeDate_spec "-0500-01-01").1
      ⟨true, '0', '5', '0', '0', '0', '1', '0', '1', by decide, by decide, by decide,
        by decide, by decide, by decide, by decide, by decide, by decide⟩
  · exact (normalizeDate_spec "yesterday").2
      (fun h => absurd ((matchesDatePattern_iff "yesterday").mpr h) (by decide))

theorem takeWhile_of_all {α : Type} (p : α → Bool) :
    ∀ l : List α, (∀ c ∈ l, p c = true) → l.takeWhile p = l := by
  intro l h
  induction l with
  | nil => rfl
  | cons x xs ih =>
    rw [List.takeWhile_cons, if_pos (h x (List.mem_cons_self x xs))]
    rw [ih (fun c hc => h c (List.mem_cons_of_mem x hc))]

theorem isDigit_not_ws {c : Char} (h : c.isDigit = true) : jsWhitespace c = false := by
  simp only [jsWhitespace, decide_eq_false_iff_not]
  rintro (rfl | rfl | rfl | rfl | rfl | rfl) <;> exact absurd h (by decide)

theorem isDigit_ne_plus {c : Char} (h : c.isDigit = true) : c ≠ '+' := by
  intro he; subst he; exact absurd h (by decide)

theorem jsParseInt_digits (l : List Char) (h1 : l ≠ []) (h2 : ∀ c ∈ l, c.isDigit = true) :
    jsParseInt (String.mk l) = some (digitsToNat l : Int) := by
  rcases l with _ | ⟨c, r⟩
  · exact absurd rfl h1
  have hc := h2 c (List.mem_cons_self c r)
  have hdrop : (String.mk (c :: r)).data.dropWhile jsWhitespace = c :: r := by
    show (c :: r).dropWhile jsWhitespace = c :: r
    rw [List.dropWhile_cons, if_neg (by rw [isDigit_not_ws hc]; exact fun hh => nomatch hh)]
  have htake : (c :: r).takeWhile Char.isDigit = c :: r := takeWhile_of_all Char.isDigit _ h2
  unfold jsParseInt
  rw [hdrop]
  simp only [if_neg (isDigit_ne_hyphen hc), if_neg (isDigit_ne_plus hc), htake]
  rw [if_neg (by exact fun hh => nomatch hh)]

/-- C6: a present, non-empty string `pages` field is parsed with the base-10
integer parser and a present, non-empty string `rating` field with the
float parser; a failed parse (`NaN`) leaves the original string in place, so
the field is never dropped and no error is raised.  The digit-run clause
states that the integer parser really reads decimal numerals. -/
theorem numericCoercion_spec (book : List (String × JValue)) (s : String) :
    (lookupOpt book "pages" = some (.str s) → s ≠ "" →
      ((∀ n : Int, jsParseInt s = some n →
          lookupOpt (coercePages book) "pages" = some (.num n 0)) ∧
       (jsParseInt s = none →
          lookupOpt (coercePages book) "pages" = some (.str s)))) ∧
    (lookupOpt book "rating" = some (.str s) → s ≠ "" →
      ((∀ (m : Int) (e : Nat), jsParseFloat s = some (m, e) →
          lookupOpt (coerceRating book) "rating" = some (.num m e)) ∧
       (jsParseFloat s = none →
          lookupOpt (coerceRating book) "rating" = some (.str s)))) ∧
    (∀ l : List Char, l ≠ [] → (∀ c ∈ l, c.isDigit = true) →
      jsParseInt (String.mk l) = some (digitsToNat l : Int)) := by
  refine ⟨?_, ?_, fun l h1 h2 => jsParseInt_digits l h1 h2⟩
  · intro hlk hne
    have hget : getProp (.obj book) "pages" = .str s := by
      rw [getProp_obj, hlk]; rfl
    have hfal : jsFalsy (.str s) = false := by simp [jsFalsy, hne]
    constructor
    · intro n hn
      simp only [coercePages, hget, hfal, Bool.false_eq_true, if_false, jsToString, hn]
      rw [lookupOpt_setProp, if_pos rfl]
    · intro hn
      simp only [coercePages, hget, hfal, Bool.false_eq_true, if_false, jsToString, hn]
      exact hlk
  · intro hlk hne
    have hget : getProp (.obj book) "rating" = .str s := by
      rw [getProp_obj, hlk]; rfl
    have hfal : jsFalsy (.str s) = false := by simp [jsFalsy, hne]
    constructor
    · intro m e hn
      simp only [coerceRating, hget, hfal, Bool.false_eq_true, if_false, jsToString, hn]
      rw [lookupOpt_setProp, if_pos rfl]
    · intro hn
      simp only [coerceRating, hget, hfal, Bool.false_eq_true, if_false, jsToString, hn]
      exact hlk

/-- Witness for C6: `pages: "312"` becomes the integer 312, `pages: "three
hundred"` keeps its string value, and `rating: "7.5"` becomes the exact
decimal 7.5. -/
theorem numericCoercion_spec_witness :
    lookupOpt (coercePages [("pages", .str "312")]) "pages" = some (.num 312 0) ∧
    lookupOpt (coercePages [("pages", .str "three hundred")]) "pages" =
      some (.str "three hundred") ∧
    lookupOpt (coerceRating [("rating", .str "7.5")]) "rating" = some (.num 75 1) := by
  refine ⟨?_, ?_, ?_⟩
  · exact ((numericCoercion_spec [("pages", .str "312")] "312").1 (by decide)
      (by decide)).1 312 (by decide)
  · exact ((numericCoercion_spec [("pages", .str "three hundred")] "three hundred").1
      (by decide) (by decide)).2 (by decide)
  · exact ((numericCoercion_spec [("rating", .str "7.5")] "7.5").2.1 (by decide)
      (by decide)).1 75 1 (by decide)

/-- Datelessness as the claim words it: the designated date field is missing
or its string conversion is empty. -/
def claimDateless (item : JValue) (field : String) : Prop :=
  getProp item field = .undefined ∨ jsToString (getProp item field) = ""

/-- Counterexample for C7: an item whose `finished` field holds the number 0
is present and stringifies to the non-empty "0", so the claim counts it as
dated; yet the comparator treats it as dateless and returns a tie against an
item with no date at all instead of ordering the dateless item after it. -/
theorem sortComparator_counterexample :
    sortByFinished (JValue.obj []) (JValue.obj [("finished", .num 0 0)]) = 0 ∧
    claimDateless (JValue.obj []) "finished" ∧
    ¬ claimDateless (JValue.obj [("finished", .num 0 0)]) "finished" := by
  refine ⟨by decide, Or.inl (by decide), ?_⟩
  rintro (h | h) <;> revert h <;> decide

/-- C7 (amended): an item whose extracted date string is empty — its date
field missing, falsy (such as the number 0), or stringifying to the empty
string — orders after any item with a non-empty date string, in both the
descending books/series comparator and the ascending timeline comparator;
two dated items compare by string comparison of their date strings, and two
dateless items tie. -/
theorem sortComparator_spec (a b : JValue) :
    (dateKey a "finished" = "" → dateKey b "finished" ≠ "" → sortByFinished a b = 1) ∧
    (dateKey a "finished" ≠ "" → dateKey b "finished" = "" → sortByFinished a b = -1) ∧
    (dateKey a "finished" = "" → dateKey b "finished" = "" → sortByFinished a b = 0) ∧
    (dateKey a "finished" ≠ "" → dateKey b "finished" ≠ "" →
      sortByFinished a b = localeCompare (dateKey b "finished") (dateKey a "finished")) ∧
    (dateKey a "start" = "" → dateKey b "start" ≠ "" → sortByStart a b = 1) ∧
    (dateKey a "start" ≠ "" → dateKey b "start" = "" → sortByStart a b = -1) ∧
    (dateKey a "start" = "" → dateKey b "start" = "" → sortByStart a b = 0) ∧
    (dateKey a "start" ≠ "" → dateKey b "start" ≠ "" →
      sortByStart a b = localeCompare (dateKey a "start") (dateKey b "start")) := by
  refine ⟨fun h1 h2 => ?_, fun h1 h2 => ?_, fun h1 h2 => ?_, fun h1 h2 => ?_,
    fun h1 h2 => ?_, fun h1 h2 => ?_, fun h1 h2 => ?_, fun h1 h2 => ?_⟩
  · simp only [sortByFinished]
    rw [if_neg (fun hh => h2 hh.2), if_pos h1]
  · simp only [sortByFinished]
    rw [if_neg (fun hh => h1 hh.1), if_neg h1, if_pos h2]
  · simp only [sortByFinished]
    rw [if_pos ⟨h1, h2⟩]
  · simp only [sortByFinished]
    rw [if_neg (fun hh => h1 hh.1), if_neg h1, if_neg h2]
  · simp only [sortByStart]
    rw [if_neg (fun hh => h2 hh.2), if_pos h1]
  · simp only [sortByStart]
    rw [if_neg (fun hh => h1 hh.1), if_neg h1, if_pos h2]
  · simp only [sortByStart]
    rw [if_pos ⟨h1, h2⟩]
  · simp only [sortByStart]
    rw [if_neg (fun hh => h1 hh.1), if_neg h1, if_neg h2]

/-- Witness for C7 at concrete inputs: a missing date orders after a dated
item in both directions, and two dated items compare by their strings. -/
theorem sortComparator_spec_witness :
    sortByFinished (JValue.obj []) (JValue.obj [("finished", .str "2024-01-10")]) = 1 ∧
    sortByStart (JValue.obj [("start", .str "0100-01-01")]) (JValue.obj []) = -1 := by
  constructor
  · exact (sortComparator_spec (JValue.obj [])
      (JValue.obj [("finished", .str "2024-01-10")])).1 (by decide) (by decide)
  · exact (sortComparator_spec (JValue.obj [("start", .str "0100-01-01")])
      (JValue.obj [])).2.2.2.2.2.1 (by decide) (by decide)

theorem cleanup_second (fsExists : String → Bool) (base : List (String × JValue))
    (x : String)
    (hx : jsFalsy (.str x) = true ∨ (x ≠ "" ∧ fsExists (joinPath VAULT_PATH x) = true)) :
    cleanupBookFrontmatter fsExists
      (setProp (setProp base "Cover (lokal)" (.str x)) "Cover" (.str "")) =
    some (setProp (setProp base "Cover (lokal)" (.str x)) "Cover" (.str ""), false) := by
  have hKL : getProp
      (.obj (setProp (setProp base "Cover (lokal)" (.str x)) "Cover" (.str "")))
      "Cover (lokal)" = .str x := by
    rw [getProp_obj, lookupOpt_setProp, if_neg (by decide), lookupOpt_setProp, if_pos rfl]
    rfl
  have hKC : getProp
      (.obj (setProp (setProp base "Cover (lokal)" (.str x)) "Cover" (.str "")))
      "Cover" = .str "" := by
    rw [getProp_obj, lookupOpt_setProp, if_pos rfl]
    rfl
  have hself1 : setProp (setProp (setProp base "Cover (lokal)" (.str x)) "Cover" (.str ""))
      "Cover (lokal)" (.str x) =
      setProp (setProp base "Cover (lokal)" (.str x)) "Cover" (.str "") :=
    setProp_self _ _ _
      (by rw [lookupOpt_setProp, if_neg (by decide), lookupOpt_setProp, if_pos rfl])
  have hself2 : setProp (setProp (setProp base "Cover (lokal)" (.str x)) "Cover" (.str ""))
      "Cover" (.str "") =
      setProp (setProp base "Cover (lokal)" (.str x)) "Cover" (.str "") :=
    setProp_self _ _ _ (by rw [lookupOpt_setProp, if_pos rfl])
  rcases hx with hx | ⟨hne, hex⟩
  · have hxe : x = "" := by simpa [jsFalsy] using hx
    subst hxe
    simp only [cleanupBookFrontmatter, hKL, hKC]
    simp [jsFalsy, hself1, hself2]
  · have hfal : jsFalsy (JValue.str x) = false := by simp [jsFalsy, hne]
    simp only [cleanupBookFrontmatter, hKL, hKC, hfal, hex]
    simp [hself1, hself2, hne]

/-- C9: the Repair (cleanup) pass is idempotent.  A note already consistent
— `Cover` present and empty, `Cover (lokal)` either a non-empty path to an
existing file or the empty string — produces the no-change flag, so the
script performs zero writes; and whatever a first run produced, running the
pass again on its output changes nothing and reports no change. -/
theorem cleanupFrontmatter_idempotent (fsExists : String → Bool)
    (data : List (String × JValue)) :
    (getProp (.obj data) "Cover" = .str "" →
      ((∃ p : String, p ≠ "" ∧ getProp (.obj data) "Cover (lokal)" = .str p ∧
          fsExists (joinPath VAULT_PATH p) = true) ∨
        getProp (.obj data) "Cover (lokal)" = .str "") →
      ∃ d, cleanupBookFrontmatter fsExists data = some (d, false)) ∧
    (∀ d c, cleanupBookFrontmatter fsExists data = some (d, c) →
      cleanupBookFrontmatter fsExists d = some (d, false)) := by
  constructor
  · intro h1 h2
    rcases h2 with ⟨p, hp, hlocal, hex⟩ | hlocal
    · have hfal : jsFalsy (JValue.str p) = false := by simp [jsFalsy, hp]
      refine ⟨setProp (setProp data "Cover (lokal)" (.str p)) "Cover" (.str ""), ?_⟩
      simp only [cleanupBookFrontmatter, hlocal, h1, hfal, hex]
      simp [hp]
    · refine ⟨setProp (setProp data "Cover (lokal)" (.str "")) "Cover" (.str ""), ?_⟩
      simp only [cleanupBookFrontmatter, hlocal, h1]
      simp [jsFalsy]
  · intro d c h
    by_cases hf : jsFalsy (getProp (JValue.obj data) "Cover (lokal)") = true
    · have hrun : cleanupBookFrontmatter fsExists data =
          some (setProp (setProp data "Cover (lokal)" (.str "")) "Cover" (.str ""),
            (!(getProp (JValue.obj data) "Cover" == JValue.str "")) ||
              !(getProp (JValue.obj data) "Cover (lokal)" == JValue.str "")) := by
        simp [cleanupBookFrontmatter, hf]
      rw [hrun] at h
      have hd : d = setProp (setProp data "Cover (lokal)" (.str "")) "Cover" (.str "") := by
        have := (Option.some.inj h)
        exact congrArg Prod.fst this.symm
      rw [hd]
      exact cleanup_second fsExists data "" (Or.inl (by simp [jsFalsy]))
    · have hfF : jsFalsy (getProp (JValue.obj data) "Cover (lokal)") = false := by
        rcases hb : jsFalsy (getProp (JValue.obj data) "Cover (lokal)")
        · rfl
        · exact absurd hb hf
      rcases hcl : getProp (JValue.obj data) "Cover (lokal)" with _ | _ | bb | ⟨mm, ee⟩ | p | xs | fs
      · rw [hcl] at hfF; exact absurd hfF (by simp [jsFalsy])
      · rw [hcl] at hfF; exact absurd hfF (by simp [jsFalsy])
      · rw [hcl] at hfF
        simp [cleanupBookFrontmatter, hcl, hfF] at h
      · rw [hcl] at hfF
        simp [cleanupBookFrontmatter, hcl, hfF] at h
      · rw [hcl] at hfF
        have hp : p ≠ "" := by
          intro he; subst he; exact absurd hfF (by simp [jsFalsy])
        by_cases hex : fsExists (joinPath VAULT_PATH p) = true
        · have hrun : cleanupBookFrontmatter fsExists data =
              some (setProp (setProp data "Cover (lokal)" (.str p)) "Cover" (.str ""),
                (!(getProp (JValue.obj data) "Cover" == JValue.str "")) ||
                  !(getProp (JValue.obj data) "Cover (lokal)" == JValue.str p)) := by
            simp [cleanupBookFrontmatter, hcl, hfF, hex, hp]
          rw [hrun] at h
          have hd : d = setProp (setProp data "Cover (lokal)" (.str p)) "Cover" (.str "") := by
            have := (Option.some.inj h)
            exact congrArg Prod.fst this.symm
          rw [hd]
          exact cleanup_second fsExists data p (Or.inr ⟨hp, hex⟩)
        · have hexf : fsExists (joinPath VAULT_PATH p) = false := by
            rcases hb : fsExists (joinPath VAULT_PATH p)
            · rfl
            · exact absurd hb hex
          have hrun : cleanupBookFrontmatter fsExists data =
              some (setProp (setProp data "Cover (lokal)" (.str "")) "Cover" (.str ""),
                (!(getProp (JValue.obj data) "Cover" == JValue.str "")) ||
                  !(getProp (JValue.obj data) "Cover (lokal)" == JValue.str "")) := by
            simp [cleanupBookFrontmatter, hcl, hfF, hexf]
          rw [hrun] at h
          have hd : d = setProp (setProp data "Cover (lokal)" (.str "")) "Cover" (.str "") := by
            have := (Option.some.inj h)
            exact congrArg Prod.fst this.symm
          rw [hd]
          exact cleanup_second fsExists data "" (Or.inl (by simp [jsFalsy]))
      · rw [hcl] at hfF
        simp [cleanupBookFrontmatter, hcl, hfF] at h
      · rw [hcl] at hfF
        simp [cleanupBookFrontmatter, hcl, hfF] at h

/-- Witness for C9: a consistent note (empty `Cover`, empty `Cover (lokal)`,
no file on disk) passes through the Repair pass with no change. -/
theorem cleanupFrontmatter_idempotent_witness :
    ∃ d, cleanupBookFrontmatter (fun _ => false)
      [("Cover", .str ""), ("Cover (lokal)", .str "")] = some (d, false) := by
  exact (cleanupFrontmatter_idempotent (fun _ => false)
      [("Cover", .str ""), ("Cover (lokal)", .str "")]).1 (by decide) (Or.inr (by decide))

theorem collapse_runReplace_true (l : List Char) :
    collapseHyphens true (runReplace true l) = collapseHyphens true (runReplace false l) := by
  cases l with
  | nil => rfl
  | cons c cs =>
    by_cases hs : isSafeChar c = true
    · simp [runReplace, hs]
    · have hsf : isSafeChar c = false := by
        rcases hb : isSafeChar c
        · rfl
        · exact absurd hb hs
      simp [runReplace, hsf, collapseHyphens]

theorem collapse_charReplace_runReplace : ∀ (l : List Char) (b : Bool),
    collapseHyphens b (l.map (fun c => if isSafeChar c then c else '-')) =
      collapseHyphens b (runReplace false l) := by
  intro l
  induction l with
  | nil => intro b; rfl
  | cons c cs ih =>
    intro b
    by_cases hs : isSafeChar c = true
    · by_cases hd : c = '-'
      · subst hd
        simp only [List.map_cons, runReplace, hs, if_true, if_pos rfl, collapseHyphens]
        cases b <;> simp [collapseHyphens, ih true]
      · simp only [List.map_cons, runReplace, hs, if_true, if_pos rfl, collapseHyphens]
        rw [if_neg hd, if_neg hd]
        exact congrArg (c :: ·) (ih false)
    · have hsf : isSafeChar c = false := by
        rcases hb : isSafeChar c
        · rfl
        · exact absurd hb hs
      simp only [List.map_cons, hsf, if_false, runReplace, Bool.false_eq_true, collapseHyphens]
      cases b
      · simp only [Bool.false_eq_true, if_false, if_pos rfl]
        exact congrArg ('-' :: ·) ((ih true).trans (collapse_runReplace_true cs).symm)
      · simp only [if_pos rfl]
        exact (ih true).trans (collapse_runReplace_true cs).symm

/-- C8: the sanitizer is a pure total function; the source's per-character
replacement followed by hyphen collapsing computes exactly the
specification's run-replacement pipeline (title and first author joined by a
hyphen, lowercased, every run of characters outside the safe class replaced
by one hyphen, repeated hyphens collapsed, boundary hyphens trimmed, the
result truncated to 100 characters and suffixed with the image extension);
and the specification's concrete example holds. -/
theorem sanitizeFilename_spec :
    (∀ title author : JValue, sanitizeFilename title author = sanitizeFilenameSpec title author) ∧
    sanitizeFilename (.str "The Pillars of the Earth") (.arr [.str "Ken Follett"]) =
      "the-pillars-of-the-earth-ken-follett.jpg" := by
  constructor
  · intro title author
    unfold sanitizeFilename sanitizeFilenameSpec
    dsimp only
    rw [collapse_charReplace_runReplace]
  · decide

theorem someIncludes_strings (t : String) : ∀ xs : List JValue,
    (∀ v ∈ xs, ∃ s, v = JValue.str s) →
    (someIncludes xs t ≠ none ∧
      (someIncludes xs t = some true ↔
        ∃ s, JValue.str s ∈ xs ∧ jsIncludes (replaceWikilinks s) t = true)) := by
  intro xs
  induction xs with
  | nil =>
    intro _
    constructor
    · simp [someIncludes]
    · simp only [someIncludes]
      constructor
      · intro h; exact absurd (Option.some.inj h) Bool.false_ne_true
      · rintro ⟨s, hmem, _⟩; cases hmem
  | cons v vs ih =>
    intro h
    obtain ⟨s, hs⟩ := h v (List.mem_cons_self v vs)
    subst hs
    obtain ⟨ihn, ihiff⟩ := ih (fun v hv => h v (List.mem_cons_of_mem _ hv))
    rcases hb : jsIncludes (replaceWikilinks s) t
    · rw [someIncludes]
      simp only [cleanWikilinks, includesTerm, hb]
      refine ⟨ihn, ihiff.trans ?_⟩
      constructor
      · rintro ⟨s2, hmem, hinc⟩
        exact ⟨s2, List.mem_cons_of_mem _ hmem, hinc⟩
      · rintro ⟨s2, hmem, hinc⟩
        rcases List.mem_cons.mp hmem with heq | hmem2
        · have hse : s2 = s := JValue.str.inj heq
          subst hse
          rw [hb] at hinc
          exact absurd hinc Bool.false_ne_true
        · exact ⟨s2, hmem2, hinc⟩
    · rw [someIncludes]
      simp only [cleanWikilinks, includesTerm, hb]
      refine ⟨by simp, ?_⟩
      constructor
      · intro _; exact ⟨s, List.mem_cons_self _ _, hb⟩
      · intro _; trivial

/-- Counterexample for C4: a present but empty-string category attribute
with the empty search term has an element that contains the term as a
substring, yet `hasKategorie` returns `false` because the attribute is
falsy; and a truthy numeric attribute makes the cleaned element's
`includes` call throw instead of returning a boolean. -/
theorem hasKategorie_counterexample :
    hasKategorie (.obj [("Kategorie", .str "")]) "" = some false ∧
    jsIncludes "" "" = true ∧
    hasKategorie (.obj [("Kategorie", .num 5 0)]) "5" = none := by
  refine ⟨by decide, by decide, by decide⟩

/-- C4 (amended): `hasKategorie` returns `false` whenever the category
attribute is absent or otherwise falsy (empty string, null, false, zero); a
truthy scalar is coerced to a one-element array; and on string elements the
result is `true` exactly when some element, after link-cleaning, contains
the search term as a substring — while a truthy non-string, non-array
element reached during the scan makes the host call throw (`none`). -/
theorem hasKategorie_spec (data : JValue) (t : String) :
    (getProp data "Kategorie" = .undefined → hasKategorie data t = some false) ∧
    (jsFalsy (getProp data "Kategorie") = true → hasKategorie data t = some false) ∧
    (∀ v, getProp data "Kategorie" = v → jsFalsy v = false → (∀ xs, v ≠ .arr xs) →
      hasKategorie data t = someIncludes [v] t) ∧
    (∀ xs, getProp data "Kategorie" = .arr xs → (∀ v ∈ xs, ∃ s, v = JValue.str s) →
      (hasKategorie data t = some true ↔
        ∃ s, JValue.str s ∈ xs ∧ jsIncludes (replaceWikilinks s) t = true)) := by
  refine ⟨?_, ?_, ?_, ?_⟩
  · intro h
    simp [hasKategorie, h, jsFalsy]
  · intro h
    simp [hasKategorie, h]
  · intro v hv hfal hnarr
    rcases v with _ | _ | bb | ⟨mm, ee⟩ | ss | xs | fs
    · exact absurd hfal (by simp [jsFalsy])
    · exact absurd hfal (by simp [jsFalsy])
    · simp only [hasKategorie, hv, hfal, Bool.false_eq_true, if_false]
    · simp only [hasKategorie, hv, hfal, Bool.false_eq_true, if_false]
    · simp only [hasKategorie, hv, hfal, Bool.false_eq_true, if_false]
    · exact absurd rfl (hnarr xs)
    · simp only [hasKategorie, hv, hfal, Bool.false_eq_true, if_false]
  · intro xs hxs hstr
    have hfal : jsFalsy (JValue.arr xs) = false := by simp [jsFalsy]
    simp only [hasKategorie, hxs, hfal, Bool.false_eq_true, if_false]
    exact (someIncludes_strings t xs hstr).2

/-- Witness for C4 at the specification's example inputs: a category list
containing a wikilinked match yields `true`, and the empty metadata mapping
yields `false`. -/
theorem hasKategorie_spec_witness :
    hasKategorie (.obj [("Kategorie", .arr [.str "[[Serien]]", .str "[[Drama]]"])])
      "Serien" = some true ∧
    hasKategorie (.obj []) "Serien" = some false := by
  constructor
  · exact ((hasKategorie_spec
      (.obj [("Kategorie", .arr [.str "[[Serien]]", .str "[[Drama]]"])]) "Serien").2.2.2
      [.str "[[Serien]]", .str "[[Drama]]"] (by decide)
      (by rintro v hv; rcases List.mem_cons.mp hv with rfl | hv2
          · exact ⟨"[[Serien]]", rfl⟩
          · rcases List.mem_cons.mp hv2 with rfl | hv3
            · exact ⟨"[[Drama]]", rfl⟩
            · cases hv3)).mpr
      ⟨"[[Serien]]", List.mem_cons_self _ _, by decide⟩
  · exact (hasKategorie_spec (.obj []) "Serien").1 (by decide)

/-- C1: `getLastUpdated` keeps the previously persisted document's
`lastUpdated` exactly when the stored document and the new grouped data are
deeply (order-sensitively) equal after removing their `lastUpdated` and
`count` fields, and stamps the current time otherwise — including when no
previous document exists or it fails to parse (`store filename = none`).
The third clause instantiates this to the exporters' output shape: a
persisted document `\x7b lastUpdated, count, ...groupedData \x7d` compared
against the same grouped data keeps its timestamp, so a re-run over
unchanged notes leaves `lastUpdated` unchanged. -/
theorem getLastUpdated_spec (store : String → Option JValue) (now filename : String)
    (newData : JValue) :
    (store filename = none → getLastUpdated store now filename newData = .str now) ∧
    (∀ existing, store filename = some existing →
      existing ≠ .null → existing ≠ .undefined → newData ≠ .null → newData ≠ .undefined →
      ((restSpread existing ["lastUpdated", "count"] =
          restSpread newData ["lastUpdated", "count"] →
        getLastUpdated store now filename newData = getProp existing "lastUpdated") ∧
       (restSpread existing ["lastUpdated", "count"] ≠
          restSpread newData ["lastUpdated", "count"] →
        getLastUpdated store now filename newData = .str now))) ∧
    (∀ (t : String) (cnt : JValue) (rest : List (String × JValue)),
      newData = .obj rest →
      (∀ p ∈ rest, p.1 ≠ "lastUpdated" ∧ p.1 ≠ "count") →
      store filename = some (.obj (("lastUpdated", .str t) :: ("count", cnt) :: rest)) →
      getLastUpdated store now filename newData = .str t) := by
  refine ⟨?_, ?_, ?_⟩
  · intro h
    simp [getLastUpdated, h]
  · intro existing hst h1 h2 h3 h4
    have hcond : ¬(existing = JValue.null ∨ existing = JValue.undefined ∨
        newData = JValue.null ∨ newData = JValue.undefined) := by
      rintro (h | h | h | h)
      exacts [h1 h, h2 h, h3 h, h4 h]
    constructor
    · intro heq
      simp only [getLastUpdated, hst]
      rw [if_neg hcond, if_pos heq]
    · intro hne
      simp only [getLastUpdated, hst]
      rw [if_neg hcond, if_neg hne]
  · intro t cnt rest hnew hkeys hst
    subst hnew
    have hfilter : rest.filter
        (fun p => !(["lastUpdated", "count"].contains p.1)) = rest := by
      rw [List.filter_eq_self]
      intro p hp
      obtain ⟨hk1, hk2⟩ := hkeys p hp
      simp [hk1, hk2, fun h : "lastUpdated" = p.1 => hk1 h.symm,
        fun h : "count" = p.1 => hk2 h.symm]
    have hres1 : restSpread
        (.obj (("lastUpdated", .str t) :: ("count", cnt) :: rest))
        ["lastUpdated", "count"] = rest := by
      show List.filter _ _ = rest
      rw [List.filter_cons, List.filter_cons]
      simp only [show (!(["lastUpdated", "count"].contains
          (("lastUpdated", JValue.str t)).1)) = false by rfl,
        show (!(["lastUpdated", "count"].contains (("count", cnt)).1)) = false by rfl]
      simpa using hfilter
    have hres2 : restSpread (.obj rest) ["lastUpdated", "count"] = rest := by
      show List.filter _ _ = rest
      exact hfilter
    have hcond : ¬((JValue.obj (("lastUpdated", .str t) :: ("count", cnt) :: rest)) =
        JValue.null ∨
        (JValue.obj (("lastUpdated", .str t) :: ("count", cnt) :: rest)) = JValue.undefined ∨
        (JValue.obj rest) = JValue.null ∨ (JValue.obj rest) = JValue.undefined) := by
      rintro (h | h | h | h) <;> cases h
    simp only [getLastUpdated, hst]
    rw [if_neg hcond, if_pos (hres1.trans hres2.symm), getProp_obj, lookupOpt_cons,
      if_pos rfl]
    rfl

/-- Witness for C1: a stored books-style document whose grouped content
matches the new data keeps its timestamp, and changing one item's rating
value stamps the fresh time instead. -/
theorem getLastUpdated_spec_witness :
    getLastUpdated
      (fun _ => some (.obj [("lastUpdated", .str "T1"), ("count", .num 1 0),
        ("aktiv", .arr [.obj [("rating", .num 5 0)]])]))
      "NOW" "books.json" (.obj [("aktiv", .arr [.obj [("rating", .num 5 0)]])]) =
      .str "T1" ∧
    getLastUpdated
      (fun _ => some (.obj [("lastUpdated", .str "T1"), ("count", .num 1 0),
        ("aktiv", .arr [.obj [("rating", .num 5 0)]])]))
      "NOW" "books.json" (.obj [("aktiv", .arr [.obj [("rating", .num 4 0)]])]) =
      .str "NOW" := by
  constructor
  · exact (getLastUpdated_spec
      (fun _ => some (.obj [("lastUpdated", .str "T1"), ("count", .num 1 0),
        ("aktiv", .arr [.obj [("rating", .num 5 0)]])]))
      "NOW" "books.json" (.obj [("aktiv", .arr [.obj [("rating", .num 5 0)]])])).2.2
      "T1" (.num 1 0) [("aktiv", .arr [.obj [("rating", .num 5 0)]])] rfl
      (by decide) rfl
  · exact (((getLastUpdated_spec
      (fun _ => some (.obj [("lastUpdated", .str "T1"), ("count", .num 1 0),
        ("aktiv", .arr [.obj [("rating", .num 5 0)]])]))
      "NOW" "books.json" (.obj [("aktiv", .arr [.obj [("rating", .num 4 0)]])])).2.1
      (.obj [("lastUpdated", .str "T1"), ("count", .num 1 0),
        ("aktiv", .arr [.obj [("rating", .num 5 0)]])]) rfl
      (by decide) (by decide) (by decide) (by decide)).2 (by decide))

theorem cleanWikilinksList_eq_map : ∀ xs : List JValue,
    cleanWikilinksList xs = xs.map cleanWikilinks
  | [] => rfl
  | v :: vs => by
    rw [cleanWikilinksList, List.map_cons, cleanWikilinksList_eq_map vs]

theorem scanWL_fuel : ∀ (n : Nat) (l : List Char) (f1 f2 : Nat),
    l.length ≤ n → l.length < f1 → l.length < f2 → scanWL f1 l = scanWL f2 l := by
  intro n
  induction n with
  | zero =>
    intro l f1 f2 hn h1 h2
    have hl : l = [] := List.eq_nil_of_length_eq_zero (Nat.le_zero.mp hn)
    subst hl
    rcases f1 with _ | g1
    · omega
    rcases f2 with _ | g2
    · omega
    rfl
  | succ n ih =>
    intro l f1 f2 hn h1 h2
    rcases l with _ | ⟨c, cs⟩
    · rcases f1 with _ | g1
      · omega
      rcases f2 with _ | g2
      · omega
      rfl
    rcases f1 with _ | g1
    · omega
    rcases f2 with _ | g2
    · omega
    rw [List.length_cons] at hn h1 h2
    simp only [scanWL]
    by_cases hcc : c = '[' ∧ cs.head? = some '['
    · rw [if_pos hcc, if_pos hcc]
      by_cases hm : cs.tail.takeWhile (fun x => x ≠ ']') ≠ [] ∧
          ((cs.tail.drop (cs.tail.takeWhile (fun x => x ≠ ']')).length).take 2) = [']', ']']
      · rw [if_pos hm, if_pos hm]
        congr 1
        have hlen : (((cs.tail.drop (cs.tail.takeWhile (fun x => x ≠ ']')).length)).drop 2).length ≤
            cs.length := by
          rw [List.length_drop, List.length_drop, List.length_tail]
          omega
        apply ih
        · omega
        · omega
        · omega
      · rw [if_neg hm, if_neg hm]
        congr 1
        apply ih
        · omega
        · omega
        · omega
    · rw [if_neg hcc, if_neg hcc]
      congr 1
      apply ih
      · omega
      · omega
      · omega

/-- Scanner applied with exactly enough fuel, the form `replaceWikilinks`
uses on a string's character list. -/
def scanStr (l : List Char) : List Char := scanWL (l.length + 1) l

theorem replaceWikilinks_eq (s : String) :
    replaceWikilinks s = String.mk (scanStr s.data) := rfl

theorem scanStr_cons_ne (c : Char) (l : List Char) (hc : c ≠ '[') :
    scanStr (c :: l) = c :: scanStr l := by
  show scanWL (l.length + 1 + 1) (c :: l) = c :: scanWL (l.length + 1) l
  simp only [scanWL]
  rw [if_neg (fun hh => hc hh.1)]

theorem scanStr_text (t : List Char) : ∀ r : List Char, '[' ∉ t →
    scanStr (t ++ r) = t ++ scanStr r := by
  induction t with
  | nil => intro r _; rfl
  | cons c cs ih =>
    intro r hni
    have hc : c ≠ '[' := fun h => hni (h ▸ List.mem_cons_self c cs)
    rw [List.cons_append, scanStr_cons_ne c (cs ++ r) hc,
      ih r (fun h => hni (List.mem_cons_of_mem c h)), List.cons_append]

theorem takeWhile_append_cons {α : Type} (p : α → Bool) (l1 : List α) (x : α) (t : List α)
    (h1 : ∀ c ∈ l1, p c = true) (hx : p x = false) :
    (l1 ++ x :: t).takeWhile p = l1 := by
  induction l1 with
  | nil => simp [List.takeWhile_cons, hx]
  | cons c cs ih =>
    rw [List.cons_append, List.takeWhile_cons, if_pos (h1 c (List.mem_cons_self c cs)),
      ih (fun c hc => h1 c (List.mem_cons_of_mem _ hc))]

theorem scanStr_link (i : List Char) (r : List Char) (hne : i ≠ []) (hni : ']' ∉ i) :
    scanStr ('[' :: '[' :: (i ++ ']' :: ']' :: r)) = i ++ scanStr r := by
  have htake : (i ++ ']' :: ']' :: r).takeWhile (fun x => x ≠ ']') = i :=
    takeWhile_append_cons _ i ']' (']' :: r)
      (fun c hc => by
        simp only [decide_eq_true_eq]
        exact fun h => hni (h ▸ hc))
      (by simp)
  have hdrop : (i ++ ']' :: ']' :: r).drop i.length = ']' :: ']' :: r :=
    List.drop_left i (']' :: ']' :: r)
  show scanWL ((i ++ ']' :: ']' :: r).length + 1 + 1 + 1)
      ('[' :: '[' :: (i ++ ']' :: ']' :: r)) = i ++ scanStr r
  simp only [scanWL, List.head?_cons, List.tail_cons]
  rw [if_pos ⟨trivial, trivial⟩]
  rw [htake, hdrop]
  rw [if_pos ⟨hne, rfl⟩]
  simp only [List.drop_succ_cons, List.drop_zero]
  congr 1
  apply scanWL_fuel r.length r
  · exact Nat.le_refl _
  · simp only [List.length_append, List.length_cons]
    omega
  · omega

/-- Decomposition of a string into literal text pieces and wikilink tokens,
used to state that the replacement removes exactly the bracket markers of
every embedded token. -/
inductive WChunk where
  | text (t : String)
  | link (inner : String)

/-- Characters a chunk contributes to the raw string: a token is rendered
with its surrounding double brackets. -/
def renderChunk : WChunk → List Char
  | .text t => t.data
  | .link i => '[' :: '[' :: (i.data ++ [']', ']'])

/-- Characters a chunk contributes to the cleaned string: a token keeps only
its display text. -/
def cleanChunk : WChunk → List Char
  | .text t => t.data
  | .link i => i.data

/-- Chunk well-formedness: text pieces contain no opening bracket and token
texts are non-empty without closing brackets, matching the token class of
the regex. -/
def wfChunk : WChunk → Prop
  | .text t => '[' ∉ t.data
  | .link i => i.data ≠ [] ∧ ']' ∉ i.data

theorem scanStr_chunks : ∀ cs : List WChunk, (∀ c ∈ cs, wfChunk c) →
    scanStr ((cs.map renderChunk).flatten) = (cs.map cleanChunk).flatten := by
  intro cs
  induction cs with
  | nil => intro _; rfl
  | cons c rest ih =>
    intro h
    have hwf : wfChunk c := h c (List.mem_cons_self c rest)
    have hrest := ih (fun x hx => h x (List.mem_cons_of_mem c hx))
    rcases c with t | i
    · show scanStr (t.data ++ (rest.map renderChunk).flatten) =
        t.data ++ (rest.map cleanChunk).flatten
      rw [scanStr_text t.data _ hwf, hrest]
    · show scanStr ('[' :: '[' :: (i.data ++ [']', ']']) ++ (rest.map renderChunk).flatten) =
        i.data ++ (rest.map cleanChunk).flatten
      have hassoc : '[' :: '[' :: (i.data ++ [']', ']']) ++ (rest.map renderChunk).flatten =
          '[' :: '[' :: (i.data ++ ']' :: ']' :: (rest.map renderChunk).flatten) := by
        simp
      rw [hassoc, scanStr_link i.data _ hwf.1 hwf.2, hrest]

/-- C3: `cleanWikilinks` is a pure total function; it maps arrays
element-wise (preserving length and order), returns every non-string
non-array value unchanged, and on strings removes exactly the outer bracket
markers of every embedded wikilink token while preserving the display text:
for any decomposition into bracket-free text pieces and well-formed tokens,
the replacement keeps the text pieces and strips each token to its inner
text. -/
theorem cleanWikilinks_spec :
    (∀ xs : List JValue, cleanWikilinks (.arr xs) = .arr (xs.map cleanWikilinks) ∧
      (xs.map cleanWikilinks).length = xs.length) ∧
    (∀ v : JValue, (∀ s, v ≠ .str s) → (∀ xs, v ≠ .arr xs) → cleanWikilinks v = v) ∧
    (∀ cs : List WChunk, (∀ c ∈ cs, wfChunk c) →
      replaceWikilinks (String.mk ((cs.map renderChunk).flatten)) =
        String.mk ((cs.map cleanChunk).flatten)) := by
  refine ⟨?_, ?_, ?_⟩
  · intro xs
    exact ⟨by rw [cleanWikilinks, cleanWikilinksList_eq_map], List.length_map xs _⟩
  · intro v h1 h2
    rcases v with _ | _ | bb | ⟨mm, ee⟩ | ss | xs | fs
    · rfl
    · rfl
    · rfl
    · rfl
    · exact absurd rfl (h1 ss)
    · exact absurd rfl (h2 xs)
    · rfl
  · intro cs h
    rw [replaceWikilinks_eq]
    show String.mk (scanStr ((cs.map renderChunk).flatten)) = _
    rw [scanStr_chunks cs h]

/-- Witness for C3: a wikilink token loses its brackets while surrounding
text survives, and the array example of the specification cleans
element-wise. -/
theorem cleanWikilinks_spec_witness :
    replaceWikilinks "x [[Some Text]]!" = "x Some Text!" ∧
    cleanWikilinks (.arr [.str "[[A]]", .str "B"]) = .arr [.str "A", .str "B"] := by
  constructor
  · have h := cleanWikilinks_spec.2.2
      [WChunk.text "x ", WChunk.link "Some Text", WChunk.text "!"]
      (by
        intro c hc
        rcases List.mem_cons.mp hc with rfl | hc2
        · show ('[' ∉ ("x " : String).data)
          decide
        rcases List.mem_cons.mp hc2 with rfl | hc3
        · exact ⟨by decide, by decide⟩
        rcases List.mem_cons.mp hc3 with rfl | hc4
        · show ('[' ∉ ("!" : String).data)
          decide
        · cases hc4)
    have e1 : String.mk ((([WChunk.text "x ", WChunk.link "Some Text",
        WChunk.text "!"]).map renderChunk).flatten) = "x [[Some Text]]!" := by decide
    have e2 : String.mk ((([WChunk.text "x ", WChunk.link "Some Text",
        WChunk.text "!"]).map cleanChunk).flatten) = "x Some Text!" := by decide
    rw [e1, e2] at h
    exact h
  · decide

/-- Value the translation loop leaves under target key `t`: the cleaned
source value of the last dictionary entry targeting `t` whose source is
defined (later entries overwrite earlier ones), used to characterize
`translateKeys`. -/
def lastVal (data : JValue) : List (String × String) → String → Option JValue
  | [], _ => none
  | p :: km, t =>
    match lastVal data km t with
    | some v => some v
    | none =>
      if p.2 = t ∧ getProp data p.1 ≠ .undefined then
        some (cleanWikilinks (getProp data p.1))
      else none

theorem translateKeys_aux (data : JValue) : ∀ (km : List (String × String))
    (acc : List (String × JValue)) (t : String),
    lookupOpt (km.foldl (fun result p =>
      if getProp data p.1 = .undefined then result
      else setProp result p.2 (cleanWikilinks (getProp data p.1))) acc) t =
    (match lastVal data km t with
     | some v => some v
     | none => lookupOpt acc t) := by
  intro km
  induction km with
  | nil => intro acc t; rfl
  | cons p km ih =>
    intro acc t
    rw [List.foldl_cons, ih, lastVal]
    rcases hq : lastVal data km t with _ | v
    · by_cases hc : p.2 = t ∧ getProp data p.1 ≠ .undefined
      · rw [if_pos hc, if_neg hc.2, lookupOpt_setProp, if_pos hc.1.symm]
      · rw [if_neg hc]
        by_cases hdef : getProp data p.1 = JValue.undefined
        · rw [if_pos hdef]
        · have ht : ¬p.2 = t := fun hh => hc ⟨hh, hdef⟩
          rw [if_neg hdef, lookupOpt_setProp, if_neg (fun hh => ht hh.symm)]
    · rfl

theorem translateKeys_eq_lastVal (data : JValue) (km : List (String × String))
    (t : String) :
    lookupOpt (translateKeys data km) t = lastVal data km t := by
  rw [translateKeys, translateKeys_aux]
  rcases h : lastVal data km t with _ | v
  · rfl
  · rfl

theorem lastVal_mem (data : JValue) : ∀ (km : List (String × String)) (t : String)
    (v : JValue), lastVal data km t = some v →
    ∃ p ∈ km, p.2 = t ∧ getProp data p.1 ≠ .undefined ∧
      v = cleanWikilinks (getProp data p.1) := by
  intro km
  induction km with
  | nil => intro t v h; exact absurd h (by simp [lastVal])
  | cons p km ih =>
    intro t v h
    rw [lastVal] at h
    rcases hq : lastVal data km t with _ | w
    · rw [hq] at h
      by_cases hc : p.2 = t ∧ getProp data p.1 ≠ .undefined
      · rw [if_pos hc] at h
        have hv : cleanWikilinks (getProp data p.1) = v := Option.some.inj h
        exact ⟨p, List.mem_cons_self p km, hc.1, hc.2, hv.symm⟩
      · rw [if_neg hc] at h
        exact absurd h (by simp)
    · rw [hq] at h
      have hv : w = v := Option.some.inj h
      obtain ⟨q, hqm, hqt, hqd, hqv⟩ := ih t w hq
      exact ⟨q, List.mem_cons_of_mem p hqm, hqt, hqd, hv ▸ hqv⟩

theorem lastVal_absent (data : JValue) : ∀ (km : List (String × String)) (t : String),
    (∀ p ∈ km, p.2 = t → getProp data p.1 = .undefined) →
    lastVal data km t = none := by
  intro km
  induction km with
  | nil => intro t _; rfl
  | cons p km ih =>
    intro t habs
    rw [lastVal, ih t (fun q hq hqt => habs q (List.mem_cons_of_mem p hq) hqt)]
    have hc : ¬(p.2 = t ∧ getProp data p.1 ≠ .undefined) := by
      rintro ⟨ht, hdef⟩
      exact hdef (habs p (List.mem_cons_self p km) ht)
    rw [if_neg hc]

theorem lastVal_defined (data : JValue) : ∀ (km : List (String × String)),
    (km.map Prod.snd).Nodup → ∀ p ∈ km, getProp data p.1 ≠ .undefined →
    lastVal data km p.2 = some (cleanWikilinks (getProp data p.1)) := by
  intro km
  induction km with
  | nil => intro _ p hp; cases hp
  | cons q km ih =>
    intro hnd p hp hdef
    have hnd2 : (km.map Prod.snd).Nodup := (List.nodup_cons.mp (by simpa using hnd)).2
    have hq2 : q.2 ∉ km.map Prod.snd := (List.nodup_cons.mp (by simpa using hnd)).1
    rcases List.mem_cons.mp hp with rfl | hpm
    · have habs : ∀ r ∈ km, r.2 = p.2 → getProp data r.1 = .undefined := by
        intro r hr hrt
        exact absurd (hrt ▸ List.mem_map_of_mem Prod.snd hr) hq2
      rw [lastVal, lastVal_absent data km p.2 habs, if_pos ⟨rfl, hdef⟩]
    · rw [lastVal, ih hnd2 p hpm hdef]

/-- Counterexample for C2: with a dictionary whose two entries share the
target key `t`, permuting the dictionary changes the looked-up value of `t`
(the later entry wins); and even with distinct targets, permuting the
dictionary permutes the key order of the produced object, so the produced
result is not literally invariant. -/
theorem translateKeys_order_counterexample :
    ([(("a" : String), ("t" : String)), ("b", "t")]).Perm [("b", "t"), ("a", "t")] ∧
    lookupOpt (translateKeys (.obj [("a", .str "1"), ("b", .str "2")])
        [("a", "t"), ("b", "t")]) "t" ≠
      lookupOpt (translateKeys (.obj [("a", .str "1"), ("b", .str "2")])
        [("b", "t"), ("a", "t")]) "t" ∧
    ([(("a" : String), ("x" : String)), ("b", "y")]).Perm [("b", "y"), ("a", "x")] ∧
    translateKeys (.obj [("a", .str "1"), ("b", .str "2")]) [("a", "x"), ("b", "y")] ≠
      translateKeys (.obj [("a", .str "1"), ("b", .str "2")]) [("b", "y"), ("a", "x")] := by
  refine ⟨by decide, by decide, by decide, by decide⟩

/-- C2 (amended): for a dictionary whose target keys are pairwise distinct,
`translateKeys` produces exactly the pairs `(targetKey, cleanWikilinks
(metadata[sourceKey]))` for the entries whose source value is defined: every
produced key is a dictionary target with a defined source, an entry with an
undefined source produces no key, a defined entry's target maps to its
cleaned source value, and the produced key-to-value mapping (though not the
literal key order of the produced object) is invariant under permutation of
the dictionary. -/
theorem translateKeys_spec (data : JValue) (km : List (String × String))
    (hnd : (km.map Prod.snd).Nodup) :
    (∀ t, lookupOpt (translateKeys data km) t ≠ none →
      ∃ p ∈ km, p.2 = t ∧ getProp data p.1 ≠ .undefined) ∧
    (∀ p ∈ km, getProp data p.1 ≠ .undefined →
      lookupOpt (translateKeys data km) p.2 =
        some (cleanWikilinks (getProp data p.1))) ∧
    (∀ p ∈ km, getProp data p.1 = .undefined →
      lookupOpt (translateKeys data km) p.2 = none) ∧
    (∀ km2, km.Perm km2 → ∀ t,
      lookupOpt (translateKeys data km) t = lookupOpt (translateKeys data km2) t) := by
  refine ⟨?_, ?_, ?_, ?_⟩
  · intro t hne
    rw [translateKeys_eq_lastVal] at hne
    rcases hv : lastVal data km t with _ | v
    · exact absurd hv hne
    · obtain ⟨p, hp, ht, hdef, _⟩ := lastVal_mem data km t v hv
      exact ⟨p, hp, ht, hdef⟩
  · intro p hp hdef
    rw [translateKeys_eq_lastVal]
    exact lastVal_defined data km hnd p hp hdef
  · intro p hp hdef
    rw [translateKeys_eq_lastVal]
    apply lastVal_absent
    intro q hq hqt
    have hqp : q = p := List.inj_on_of_nodup_map hnd hq hp hqt
    subst hqp
    exact hdef
  · intro km2 hperm t
    have hnd2 : (km2.map Prod.snd).Nodup := ((hperm.map Prod.snd).nodup_iff).mp hnd
    rw [translateKeys_eq_lastVal, translateKeys_eq_lastVal]
    by_cases hex : ∃ p ∈ km, p.2 = t ∧ getProp data p.1 ≠ .undefined
    · obtain ⟨p, hp, ht, hdef⟩ := hex
      subst ht
      rw [lastVal_defined data km hnd p hp hdef,
        lastVal_defined data km2 hnd2 p (hperm.mem_iff.mp hp) hdef]
    · push_neg at hex
      rw [lastVal_absent data km t hex,
        lastVal_absent data km2 t (fun p hp ht => hex p (hperm.mem_iff.mpr hp) ht)]

/-- Witness for C2 at a concrete books-style dictionary: a defined German
key is translated to its English key with cleaned value, an undefined key
produces nothing, and a key outside the dictionary's targets is absent. -/
theorem translateKeys_spec_witness :
    lookupOpt (translateKeys (.obj [("Titel", .str "[[Dune]]")])
      [("Titel", "title"), ("Autor", "author")]) "title" = some (.str "Dune") ∧
    lookupOpt (translateKeys (.obj [("Titel", .str "[[Dune]]")])
      [("Titel", "title"), ("Autor", "author")]) "author" = none := by
  constructor
  · have h := (translateKeys_spec (.obj [("Titel", .str "[[Dune]]")])
      [("Titel", "title"), ("Autor", "author")] (by decide)).2.1
      ("Titel", "title") (List.mem_cons_self _ _) (by decide)
    simpa using h
  · exact (translateKeys_spec (.obj [("Titel", .str "[[Dune]]")])
      [("Titel", "title"), ("Autor", "author")] (by decide)).2.2.1
      ("Autor", "author") (List.mem_cons_of_mem _ (List.mem_cons_self _ _)) (by decide)

theorem filter_split_length {α : Type} (p : α → Bool) : ∀ l : List α,
    (l.filter p).length + (l.filter (fun a => !(p a))).length = l.length := by
  intro l
  induction l with
  | nil => rfl
  | cons a l ih =>
    by_cases h : p a = true
    · simp only [List.filter_cons, h, if_true, Bool.not_true, Bool.false_eq_true, if_false,
        List.length_cons]
      omega
    · have hf : p a = false := by
        rcases hb : p a
        · rfl
        · exact absurd hb h
      simp only [List.filter_cons, hf, Bool.false_eq_true, if_false, Bool.not_false, if_true,
        List.length_cons]
      omega

theorem pushYear_total : ∀ (m : List (String × List JValue)) (y : String) (b : JValue),
    ((pushYear m y b).map (fun p => p.2.length)).sum =
      (m.map (fun p => p.2.length)).sum + 1 := by
  intro m
  induction m with
  | nil => intro y b; simp [pushYear]
  | cons p ps ih =>
    intro y b
    by_cases h : p.1 = y
    · simp only [pushYear, h, if_true, List.map_cons, List.sum_cons, List.length_append,
        List.length_cons, List.length_nil]
      omega
    · simp only [pushYear, h, if_false, List.map_cons, List.sum_cons, ih]
      omega

theorem isBucketed_of_tag (b : JValue) :
    isBucketed b = true ↔
      statusTag b = .str "Aktiv" ∨ statusTag b = .str "Merkliste" ∨
      statusTag b = .str "Pausiert" ∨ statusTag b = .str "Abgeschlossen" := by
  simp [isBucketed]
  tauto

theorem statusStep_total (yearOf : JValue → String) (g : StatusGroups) (b : JValue) :
    bucketsTotal (statusStep yearOf g b) =
      bucketsTotal g + (if isBucketed b then 1 else 0) := by
  unfold statusStep
  by_cases h1 : statusTag b = .str "Aktiv"
  · rw [if_pos h1, if_pos (by rw [isBucketed_of_tag]; exact Or.inl h1)]
    simp only [bucketsTotal, List.length_append, List.length_cons, List.length_nil]
    omega
  rw [if_neg h1]
  by_cases h2 : statusTag b = .str "Merkliste"
  · rw [if_pos h2, if_pos (by rw [isBucketed_of_tag]; exact Or.inr (Or.inl h2))]
    simp only [bucketsTotal, List.length_append, List.length_cons, List.length_nil]
    omega
  rw [if_neg h2]
  by_cases h3 : statusTag b = .str "Pausiert"
  · rw [if_pos h3, if_pos (by rw [isBucketed_of_tag]; exact Or.inr (Or.inr (Or.inl h3)))]
    simp only [bucketsTotal, List.length_append, List.length_cons, List.length_nil]
    omega
  rw [if_neg h3]
  by_cases h4 : statusTag b = .str "Abgeschlossen"
  · rw [if_pos h4, if_pos (by rw [isBucketed_of_tag]; exact Or.inr (Or.inr (Or.inr h4)))]
    simp only [bucketsTotal, pushYear_total]
    omega
  · rw [if_neg h4, if_neg (by
      rw [isBucketed_of_tag]
      rintro (h | h | h | h)
      exacts [h1 h, h2 h, h3 h, h4 h])]
    omega

theorem foldl_statusStep_total (yearOf : JValue → String) : ∀ (items : List JValue)
    (g : StatusGroups),
    bucketsTotal (items.foldl (statusStep yearOf) g) =
      bucketsTotal g + (items.filter (fun b => isBucketed b)).length := by
  intro items
  induction items with
  | nil => intro g; simp
  | cons b items ih =>
    intro g
    rw [List.foldl_cons, ih, statusStep_total]
    by_cases hb : isBucketed b = true
    · simp only [List.filter_cons, hb, if_true, List.length_cons]
      omega
    · have hf : isBucketed b = false := by
        rcases hx : isBucketed b
        · rfl
        · exact absurd hx hb
      simp only [List.filter_cons, hf, Bool.false_eq_true, if_false]
      omega

/-- Bucket membership invariant of the grouping loop: every item stored in a
bucket carries the bucket's status label. -/
def bucketInv (g : StatusGroups) : Prop :=
  (∀ x ∈ g.aktiv, statusTag x = .str "Aktiv") ∧
  (∀ x ∈ g.merkliste, statusTag x = .str "Merkliste") ∧
  (∀ x ∈ g.pausiert, statusTag x = .str "Pausiert") ∧
  (∀ p ∈ g.abgeschlossen, ∀ x ∈ p.2, statusTag x = .str "Abgeschlossen")

theorem pushYear_mem : ∀ (m : List (String × List JValue)) (y : String) (b : JValue),
    ∀ p ∈ pushYear m y b, ∀ x ∈ p.2, (∃ q ∈ m, x ∈ q.2) ∨ x = b := by
  intro m
  induction m with
  | nil =>
    intro y b p hp x hx
    rcases List.mem_cons.mp hp with rfl | hp2
    · rcases List.mem_cons.mp hx with rfl | hx2
      · exact Or.inr rfl
      · cases hx2
    · cases hp2
  | cons q ps ih =>
    intro y b p hp x hx
    by_cases h : q.1 = y
    · rw [pushYear, if_pos h] at hp
      rcases List.mem_cons.mp hp with rfl | hp2
      · rcases List.mem_append.mp hx with hx1 | hx2
        · exact Or.inl ⟨q, List.mem_cons_self q ps, hx1⟩
        · rcases List.mem_cons.mp hx2 with rfl | hx3
          · exact Or.inr rfl
          · cases hx3
      · exact Or.inl ⟨p, List.mem_cons_of_mem q hp2, hx⟩
    · rw [pushYear, if_neg h] at hp
      rcases List.mem_cons.mp hp with rfl | hp2
      · exact Or.inl ⟨p, List.mem_cons_self p ps, hx⟩
      · rcases ih y b p hp2 x hx with ⟨r, hr, hxr⟩ | rfl
        · exact Or.inl ⟨r, List.mem_cons_of_mem q hr, hxr⟩
        · exact Or.inr rfl

theorem statusStep_inv (yearOf : JValue → String) (g : StatusGroups) (b : JValue)
    (h : bucketInv g) : bucketInv (statusStep yearOf g b) := by
  obtain ⟨ha, hm, hp, hab⟩ := h
  unfold statusStep
  by_cases h1 : statusTag b = .str "Aktiv"
  · rw [if_pos h1]
    refine ⟨?_, hm, hp, hab⟩
    intro x hx
    rcases List.mem_append.mp hx with hx1 | hx2
    · exact ha x hx1
    · rcases List.mem_cons.mp hx2 with rfl | hx3
      · exact h1
      · cases hx3
  rw [if_neg h1]
  by_cases h2 : statusTag b = .str "Merkliste"
  · rw [if_pos h2]
    refine ⟨ha, ?_, hp, hab⟩
    intro x hx
    rcases List.mem_append.mp hx with hx1 | hx2
    · exact hm x hx1
    · rcases List.mem_cons.mp hx2 with rfl | hx3
      · exact h2
      · cases hx3
  rw [if_neg h2]
  by_cases h3 : statusTag b = .str "Pausiert"
  · rw [if_pos h3]
    refine ⟨ha, hm, ?_, hab⟩
    intro x hx
    rcases List.mem_append.mp hx with hx1 | hx2
    · exact hp x hx1
    · rcases List.mem_cons.mp hx2 with rfl | hx3
      · exact h3
      · cases hx3
  rw [if_neg h3]
  by_cases h4 : statusTag b = .str "Abgeschlossen"
  · rw [if_pos h4]
    refine ⟨ha, hm, hp, ?_⟩
    intro p hpm x hx
    rcases pushYear_mem g.abgeschlossen _ b p hpm x hx with ⟨q, hq, hxq⟩ | rfl
    · exact hab q hq x hxq
    · exact h4
  · rw [if_neg h4]
    exact ⟨ha, hm, hp, hab⟩

theorem groupByStatus_inv (yearOf : JValue → String) (items : List JValue) :
    bucketInv (groupByStatus yearOf items) := by
  have haux : ∀ (l : List JValue) (g : StatusGroups), bucketInv g →
      bucketInv (l.foldl (statusStep yearOf) g) := by
    intro l
    induction l with
    | nil => intro g hg; exact hg
    | cons b l ih =>
      intro g hg
      rw [List.foldl_cons]
      exact ih _ (statusStep_inv yearOf g b hg)
  exact haux items (StatusGroups.mk [] [] [] [])
    ⟨fun x hx => (by cases hx), fun x hx => (by cases hx), fun x hx => (by cases hx),
      fun p hp => (by cases hp)⟩

/-- C10: in the books and series exports, the published `count` is the
number of scanned items, every item with an unrecognized or empty first
status lands in no bucket, and therefore `count` equals the bucket total
plus the number of unbucketed items — so `count` is at least the bucket
total, strictly greater exactly when an unbucketed item exists.  The last
clause states the claim's description of unbucketed items: for an item
whose status is an array, it is bucketed exactly when the array's first
element is one of the four known labels. -/
theorem groupByStatus_count_spec (yearOf : JValue → String) (items : List JValue) :
    (outputCount items = bucketsTotal (groupByStatus yearOf items) +
      (items.filter (fun b => !(isBucketed b))).length) ∧
    (bucketsTotal (groupByStatus yearOf items) ≤ outputCount items) ∧
    (bucketsTotal (groupByStatus yearOf items) < outputCount items ↔
      ∃ b ∈ items, isBucketed b = false) ∧
    (∀ b ∈ items, isBucketed b = false →
      b ∉ (groupByStatus yearOf items).aktiv ∧
      b ∉ (groupByStatus yearOf items).merkliste ∧
      b ∉ (groupByStatus yearOf items).pausiert ∧
      ∀ p ∈ (groupByStatus yearOf items).abgeschlossen, b ∉ p.2) ∧
    (∀ (b : JValue) (l : List JValue), getProp b "status" = .arr l →
      (isBucketed b = true ↔
        ∃ s ∈ (["Aktiv", "Merkliste", "Pausiert", "Abgeschlossen"] : List String),
          l.head? = some (.str s))) := by
  have htotal : bucketsTotal (groupByStatus yearOf items) =
      (items.filter (fun b => isBucketed b)).length := by
    rw [groupByStatus, foldl_statusStep_total]
    simp [bucketsTotal]
  have hsplit := filter_split_length (fun b => isBucketed b) items
  refine ⟨?_, ?_, ?_, ?_, ?_⟩
  · rw [htotal]
    show items.length = _
    omega
  · rw [htotal]
    show _ ≤ items.length
    omega
  · rw [htotal]
    show (items.filter (fun b => isBucketed b)).length < items.length ↔ _
    constructor
    · intro hlt
      have hpos : 0 < (items.filter (fun b => !(isBucketed b))).length := by omega
      obtain ⟨b, hb⟩ := List.exists_mem_of_length_pos hpos
      have hbm := List.mem_filter.mp hb
      refine ⟨b, hbm.1, ?_⟩
      rcases hx : isBucketed b
      · rfl
      · rw [hx] at hbm; exact absurd hbm.2 (by simp)
    · rintro ⟨b, hb, hbf⟩
      have : b ∈ items.filter (fun b => !(isBucketed b)) :=
        List.mem_filter.mpr ⟨hb, by rw [hbf]; rfl⟩
      have := List.length_pos.mpr (List.ne_nil_of_mem this)
      omega
  · intro b _ hbf
    obtain ⟨ha, hm, hp, hab⟩ := groupByStatus_inv yearOf items
    refine ⟨fun hx => ?_, fun hx => ?_, fun hx => ?_, fun p hpm hx => ?_⟩
    · rw [(isBucketed_of_tag b).mpr (Or.inl (ha b hx))] at hbf
      exact Bool.true_eq_false ▸ (by exact absurd hbf (by simp))
    · rw [(isBucketed_of_tag b).mpr (Or.inr (Or.inl (hm b hx)))] at hbf
      exact absurd hbf (by simp)
    · rw [(isBucketed_of_tag b).mpr (Or.inr (Or.inr (Or.inl (hp b hx))))] at hbf
      exact absurd hbf (by simp)
    · rw [(isBucketed_of_tag b).mpr (Or.inr (Or.inr (Or.inr (hab p hpm b hx))))] at hbf
      exact absurd hbf (by simp)
  · intro b l hl
    have hget : getProp b "status" = .arr l := hl
    have h0 : statusTag b = (if jsFalsy ((l.get? 0).getD .undefined) then .str ""
        else (l.get? 0).getD .undefined) := by
      unfold statusTag
      rw [hget]
      rfl
    cases l with
    | nil =>
      constructor
      · intro hx
        rw [isBucketed_of_tag, h0] at hx
        simp only [List.get?_nil, Option.getD_none, jsFalsy, if_true] at hx
        rcases hx with hx | hx | hx | hx <;> exact absurd hx (by decide)
      · rintro ⟨s, _, hs⟩
        cases hs
    | cons v l2 =>
      have hv : statusTag b = (if jsFalsy v then .str "" else v) := by
        rw [h0]
        rfl
      by_cases hf : jsFalsy v = true
      · rw [if_pos hf] at hv
        constructor
        · intro hx
          rw [isBucketed_of_tag, hv] at hx
          rcases hx with hx | hx | hx | hx <;> exact absurd hx (by decide)
        · rintro ⟨s, hs, hveq⟩
          have : v = .str s := Option.some.inj hveq
          subst this
          have hse : s = "" := by simpa [jsFalsy] using hf
          subst hse
          exact absurd hs (by decide)
      · have hff : jsFalsy v = false := by
          rcases hx : jsFalsy v
          · rfl
          · exact absurd hx hf
        rw [if_neg (by rw [hff]; exact fun hh => nomatch hh)] at hv
        rw [isBucketed_of_tag, hv]
        constructor
        · rintro (rfl | rfl | rfl | rfl)
          · exact ⟨"Aktiv", by decide, rfl⟩
          · exact ⟨"Merkliste", by decide, rfl⟩
          · exact ⟨"Pausiert", by decide, rfl⟩
          · exact ⟨"Abgeschlossen", by decide, rfl⟩
        · rintro ⟨s, hs, hveq⟩
          have hv2 : v = .str s := Option.some.inj hveq
          subst hv2
          rcases List.mem_cons.mp hs with rfl | hs2
          · exact Or.inl rfl
          rcases List.mem_cons.mp hs2 with rfl | hs3
          · exact Or.inr (Or.inl rfl)
          rcases List.mem_cons.mp hs3 with rfl | hs4
          · exact Or.inr (Or.inr (Or.inl rfl))
          rcases List.mem_cons.mp hs4 with rfl | hs5
          · exact Or.inr (Or.inr (Or.inr rfl))
          · cases hs5

/-- Witness for C10: one recognized and one unrecognized status — the count
is two, the buckets hold one, and the unbucketed item is in no bucket. -/
theorem groupByStatus_count_spec_witness :
    outputCount [JValue.obj [("status", .arr [.str "Aktiv"])],
        JValue.obj [("status", .arr [.str "Wunschliste"])]] =
      bucketsTotal (groupByStatus (fun _ => "unknown")
        [JValue.obj [("status", .arr [.str "Aktiv"])],
         JValue.obj [("status", .arr [.str "Wunschliste"])]]) + 1 := by
  have h := (groupByStatus_count_spec (fun _ => "unknown")
    [JValue.obj [("status", .arr [.str "Aktiv"])],
     JValue.obj [("status", .arr [.str "Wunschliste"])]]).1
  simpa using h
